import Mathlib

/-!
Verification development for a table-driven LL(1) Pascal front-end:
a lexer (`lexer.py`), a static grammar description with a precomputed
LL(1) parsing table (`grammar.py`), a predictive parser (`parser.py`),
and a parse-tree builder (`parse_tree.py`).

The Python sources are embedded shallowly:

* the lexer's scanning loops become structurally recursive functions
  driven by an exact character budget (each loop advances the cursor
  by one character per iteration);
* the parser's while-loop becomes a fuel-indexed step function; fuel
  exhaustion is a distinct `Option.none` result, and a theorem shows
  sufficient fuel always exists;
* Python's mutable `ParseTreeNode` references are represented as paths
  from the root of a pure tree (`parse_tree.py` documents that node
  ownership is strictly tree-shaped, with no sharing and no
  back-references, so a reference is equivalent to its path);
* the grammar's dictionaries become association lists with the same
  lookup semantics (`dict.get` with default).
-/

set_option maxRecDepth 40000

/-! ## Lexer (`lexer.py`) -/

/-- Token categories, mirroring `lexer.py`'s `TokenType` enum. -/
inductive TokenType where
  | PROGRAM | VAR | BEGIN | END | INTEGER | REAL | BOOLEAN | IF | THEN | ELSE
  | WHILE | DO | READ | WRITE | DIV | MOD
  | ID | NUM
  | PLUS | MINUS | MULTIPLY | DIVIDE | ASSIGN | EQUAL | NOT_EQUAL | LESS
  | GREATER | LESS_EQUAL | GREATER_EQUAL
  | LPAREN | RPAREN | SEMICOLON | COLON | COMMA | DOT
  | EOF
deriving Repr, DecidableEq, Fintype

/-- A token: category, lexeme, 1-based line and column (`lexer.py` `Token`). -/
structure Token where
  type : TokenType
  value : String
  line : Nat
  column : Nat
deriving Repr, DecidableEq

/-- `lexer.py` `LexerError`: message plus 1-based position. -/
structure LexerError where
  message : String
  line : Nat
  column : Nat
deriving Repr, DecidableEq

/-- The reserved-word table (`Lexer.KEYWORDS`). -/
def KEYWORDS : List (String × TokenType) :=
  [("program", .PROGRAM), ("var", .VAR), ("begin", .BEGIN), ("end", .END),
   ("integer", .INTEGER), ("real", .REAL), ("boolean", .BOOLEAN),
   ("if", .IF), ("then", .THEN), ("else", .ELSE), ("while", .WHILE),
   ("do", .DO), ("read", .READ), ("write", .WRITE), ("div", .DIV), ("mod", .MOD)]

/-- Mutable lexer state: source characters, cursor, 1-based position, and the
tokens accumulated so far (`Lexer.__init__`). -/
structure LexSt where
  source : List Char
  pos : Nat
  line : Nat
  column : Nat
  tokens : List Token
deriving Repr

/-- `Lexer.current_char`: the character at the cursor, or none at end. -/
def currentChar (st : LexSt) : Option Char := st.source.get? st.pos

/-- `Lexer.peek` (with its default offset 1). -/
def peekChar (st : LexSt) : Option Char := st.source.get? (st.pos + 1)

/-- `Lexer.advance`: move one character, tracking line/column. -/
def advanceL (st : LexSt) : LexSt :=
  match st.source.get? st.pos with
  | some '\n' => { st with pos := st.pos + 1, line := st.line + 1, column := 1 }
  | _ => { st with pos := st.pos + 1, column := st.column + 1 }

/-- Python `str.isspace` on the characters the lexer can meet (ASCII). -/
def isSpaceChar (c : Char) : Bool :=
  c = ' ' || c = '\t' || c = '\n' || c = '\r' || c = '\x0b' || c = '\x0c'

/-- Python `str.isdigit` restricted to ASCII. -/
def isDigitChar (c : Char) : Bool := c.isDigit

/-- Python `str.isalpha` restricted to ASCII. -/
def isAlphaChar (c : Char) : Bool := c.isAlpha

/-- Python `str.isalnum` restricted to ASCII. -/
def isAlnumChar (c : Char) : Bool := c.isAlpha || c.isDigit

/-- The loop of `Lexer.skip_whitespace`; the first argument is the exact
number of characters left, so the loop never stops early. -/
def skipWhitespaceAux : Nat → LexSt → LexSt
  | 0, st => st
  | n+1, st =>
    match currentChar st with
    | some c => if isSpaceChar c then skipWhitespaceAux n (advanceL st) else st
    | none => st

/-- `Lexer.skip_whitespace`. -/
def skipWhitespace (st : LexSt) : LexSt :=
  skipWhitespaceAux (st.source.length - st.pos) st

/-- The scan loop of the `{ ... }` branch of `Lexer.skip_comment`:
advance while the current character exists and is not `}`. -/
def skipBraceAux : Nat → LexSt → LexSt
  | 0, st => st
  | n+1, st =>
    match currentChar st with
    | some c => if c ≠ '}' then skipBraceAux n (advanceL st) else st
    | none => st

/-- The scan loop of the `(* ... *)` branch of `Lexer.skip_comment`:
advance until `*` followed by `)` (consuming both) or end of input. -/
def skipParenAux : Nat → LexSt → LexSt
  | 0, st => st
  | n+1, st =>
    match currentChar st with
    | some c =>
      if c = '*' ∧ peekChar st = some ')' then advanceL (advanceL st)
      else skipParenAux n (advanceL st)
    | none => st

/-- `Lexer.skip_comment`. -/
def skipComment (st : LexSt) : LexSt :=
  if currentChar st = some '{' then
    let st1 := advanceL st
    let st2 := skipBraceAux (st1.source.length - st1.pos) st1
    if currentChar st2 = some '}' then advanceL st2 else st2
  else if currentChar st = some '(' ∧ peekChar st = some '*' then
    let st1 := advanceL (advanceL st)
    skipParenAux (st1.source.length - st1.pos) st1
  else st

/-- Digit-run loop shared by both halves of `Lexer.read_number`. -/
def readDigitsAux : Nat → LexSt → List Char → List Char × LexSt
  | 0, st, acc => (acc, st)
  | n+1, st, acc =>
    match currentChar st with
    | some c =>
      if isDigitChar c then readDigitsAux n (advanceL st) (acc ++ [c]) else (acc, st)
    | none => (acc, st)

/-- `Lexer.read_number`: a digit run, optionally followed by `.` and another
digit run when the `.` is itself followed by a digit. -/
def read_number (st : LexSt) : Token × LexSt :=
  let startLine := st.line
  let startCol := st.column
  let (ds, st1) := readDigitsAux (st.source.length - st.pos) st []
  if currentChar st1 = some '.' ∧ (peekChar st1).any (fun c => isDigitChar c) then
    let st2 := advanceL st1
    let (ds2, st3) := readDigitsAux (st2.source.length - st2.pos) st2 []
    (⟨.NUM, String.mk (ds ++ ['.'] ++ ds2), startLine, startCol⟩, st3)
  else
    (⟨.NUM, String.mk ds, startLine, startCol⟩, st1)

/-- Identifier-character loop of `Lexer.read_identifier`. -/
def readIdentAux : Nat → LexSt → List Char → List Char × LexSt
  | 0, st, acc => (acc, st)
  | n+1, st, acc =>
    match currentChar st with
    | some c =>
      if isAlnumChar c ∨ c = '_' then readIdentAux n (advanceL st) (acc ++ [c])
      else (acc, st)
    | none => (acc, st)

/-- Python `str.lower` on the ASCII words the lexer meets, rendered
character-wise so it computes. -/
def lowerStr (s : String) : String := String.mk (s.data.map Char.toLower)

/-- `Lexer.read_identifier`: read a word, then classify it as a keyword by
its lowercased spelling (keeping the original casing in the lexeme) or as
an identifier. -/
def read_identifier (st : LexSt) : Token × LexSt :=
  let startLine := st.line
  let startCol := st.column
  let (cs, st1) := readIdentAux (st.source.length - st.pos) st []
  let s := String.mk cs
  match KEYWORDS.lookup (lowerStr s) with
  | some tt => (⟨tt, s, startLine, startCol⟩, st1)
  | none => (⟨.ID, s, startLine, startCol⟩, st1)

/-- Append a freshly produced token (`self.tokens.append(...)`). -/
def emitTok (st : LexSt) (t : Token) : LexSt :=
  { st with tokens := st.tokens ++ [t] }

/-- The main loop of `Lexer.tokenize`.  One iteration handles exactly one of
the branches of the Python loop body; `none` means the iteration budget ran
out (the budget `source.length + 1` used by `tokenize` never does, since
every iteration advances the cursor). -/
def tokenizeAux : Nat → LexSt → Option (Except LexerError (List Token))
  | 0, st =>
    match currentChar st with
    | none => some (.ok (st.tokens ++ [⟨.EOF, "$", st.line, st.column⟩]))
    | some _ => none
  | fuel+1, st =>
    match currentChar st with
    | none => some (.ok (st.tokens ++ [⟨.EOF, "$", st.line, st.column⟩]))
    | some c =>
        if isSpaceChar c then tokenizeAux fuel (skipWhitespace st)
        else if c = '{' ∨ (c = '(' ∧ peekChar st = some '*') then
          tokenizeAux fuel (skipComment st)
        else
          let startLine := st.line
          let startCol := st.column
          if isDigitChar c then
            let (tok, st') := read_number st
            tokenizeAux fuel (emitTok st' tok)
          else if isAlphaChar c ∨ c = '_' then
            let (tok, st') := read_identifier st
            tokenizeAux fuel (emitTok st' tok)
          else if c = ':' ∧ peekChar st = some '=' then
            tokenizeAux fuel (emitTok (advanceL (advanceL st)) ⟨.ASSIGN, ":=", startLine, startCol⟩)
          else if c = '<' ∧ peekChar st = some '=' then
            tokenizeAux fuel (emitTok (advanceL (advanceL st)) ⟨.LESS_EQUAL, "<=", startLine, startCol⟩)
          else if c = '>' ∧ peekChar st = some '=' then
            tokenizeAux fuel (emitTok (advanceL (advanceL st)) ⟨.GREATER_EQUAL, ">=", startLine, startCol⟩)
          else if c = '<' ∧ peekChar st = some '>' then
            tokenizeAux fuel (emitTok (advanceL (advanceL st)) ⟨.NOT_EQUAL, "<>", startLine, startCol⟩)
          else if c = '+' then
            tokenizeAux fuel (emitTok (advanceL st) ⟨.PLUS, "+", startLine, startCol⟩)
          else if c = '-' then
            tokenizeAux fuel (emitTok (advanceL st) ⟨.MINUS, "-", startLine, startCol⟩)
          else if c = '*' then
            tokenizeAux fuel (emitTok (advanceL st) ⟨.MULTIPLY, "*", startLine, startCol⟩)
          else if c = '/' then
            tokenizeAux fuel (emitTok (advanceL st) ⟨.DIVIDE, "/", startLine, startCol⟩)
          else if c = '=' then
            tokenizeAux fuel (emitTok (advanceL st) ⟨.EQUAL, "=", startLine, startCol⟩)
          else if c = '<' then
            tokenizeAux fuel (emitTok (advanceL st) ⟨.LESS, "<", startLine, startCol⟩)
          else if c = '>' then
            tokenizeAux fuel (emitTok (advanceL st) ⟨.GREATER, ">", startLine, startCol⟩)
          else if c = '(' then
            tokenizeAux fuel (emitTok (advanceL st) ⟨.LPAREN, "(", startLine, startCol⟩)
          else if c = ')' then
            tokenizeAux fuel (emitTok (advanceL st) ⟨.RPAREN, ")", startLine, startCol⟩)
          else if c = ';' then
            tokenizeAux fuel (emitTok (advanceL st) ⟨.SEMICOLON, ";", startLine, startCol⟩)
          else if c = ':' then
            tokenizeAux fuel (emitTok (advanceL st) ⟨.COLON, ":", startLine, startCol⟩)
          else if c = ',' then
            tokenizeAux fuel (emitTok (advanceL st) ⟨.COMMA, ",", startLine, startCol⟩)
          else if c = '.' then
            tokenizeAux fuel (emitTok (advanceL st) ⟨.DOT, ".", startLine, startCol⟩)
          else
            some (.error ⟨"Unexpected character: " ++ String.mk ['\'', c, '\''], startLine, startCol⟩)

/-- Fresh lexer state for a source text. -/
def initLexSt (source : String) : LexSt := ⟨source.data, 0, 1, 1, []⟩

/-- `Lexer.tokenize`: scan a whole source text into tokens (ending with the
EOF token) or fail on the first unexpected character.  The iteration budget
`length + 1` is always sufficient. -/
def tokenize (source : String) : Option (Except LexerError (List Token)) :=
  tokenizeAux (source.length + 1) (initLexSt source)

/-! ## Grammar (`grammar.py`) -/

/-- `grammar.py` `NONTERMINALS`. -/
def NONTERMINALS : List String :=
  ["Program", "Block", "Declarations", "DeclList", "DeclListP",
   "Decl", "IdList", "IdListP", "Type",
   "StmtList", "StmtListP", "Statement", "AssignStmt",
   "IfStmt", "ElsePart", "WhileStmt", "ReadStmt", "WriteStmt",
   "ExprList", "ExprListP", "BoolExpr", "RelOp",
   "Expression", "ExpressionP", "Term", "TermP", "Factor"]

/-- `grammar.py` `TERMINALS`. -/
def TERMINALS : List String :=
  ["program", "id", ";", ".", "var", "begin", "end", ":", ",",
   "integer", "real", "boolean",
   ":=", "if", "then", "else", "while", "do", "read", "write",
   "(", ")", "+", "-", "*", "/", "div", "mod",
   "<", ">", "<=", ">=", "=", "<>",
   "num", "$"]

/-- `grammar.py` `EPSILON`. -/
def EPSILON : String := "ε"

/-- `grammar.py` `PRODUCTIONS`: nonterminal → ordered alternatives. -/
def PRODUCTIONS : List (String × List (List String)) :=
  [("Program", [["program", "id", ";", "Block", "."]]),
   ("Block", [["Declarations", "begin", "StmtList", "end"]]),
   ("Declarations", [["var", "DeclList"], [EPSILON]]),
   ("DeclList", [["Decl", "DeclListP"]]),
   ("DeclListP", [["Decl", "DeclListP"], [EPSILON]]),
   ("Decl", [["IdList", ":", "Type", ";"]]),
   ("IdList", [["id", "IdListP"]]),
   ("IdListP", [[",", "id", "IdListP"], [EPSILON]]),
   ("Type", [["integer"], ["real"], ["boolean"]]),
   ("StmtList", [["Statement", "StmtListP"]]),
   ("StmtListP", [[";", "Statement", "StmtListP"], [EPSILON]]),
   ("Statement",
     [["id", ":=", "Expression"],
      ["IfStmt"],
      ["WhileStmt"],
      ["ReadStmt"],
      ["WriteStmt"],
      ["begin", "StmtList", "end"],
      [EPSILON]]),
   ("AssignStmt", [["id", ":=", "Expression"]]),
   ("IfStmt", [["if", "BoolExpr", "then", "Statement", "ElsePart"]]),
   ("ElsePart", [["else", "Statement"], [EPSILON]]),
   ("WhileStmt", [["while", "BoolExpr", "do", "Statement"]]),
   ("ReadStmt", [["read", "(", "IdList", ")"]]),
   ("WriteStmt", [["write", "(", "ExprList", ")"]]),
   ("ExprList", [["Expression", "ExprListP"]]),
   ("ExprListP", [[",", "Expression", "ExprListP"], [EPSILON]]),
   ("BoolExpr", [["Expression", "RelOp", "Expression"]]),
   ("RelOp", [["<"], [">"], ["<="], [">="], ["="], ["<>"]]),
   ("Expression", [["Term", "ExpressionP"]]),
   ("ExpressionP", [["+", "Term", "ExpressionP"], ["-", "Term", "ExpressionP"], [EPSILON]]),
   ("Term", [["Factor", "TermP"]]),
   ("TermP",
     [["*", "Factor", "TermP"], ["/", "Factor", "TermP"],
      ["div", "Factor", "TermP"], ["mod", "Factor", "TermP"], [EPSILON]]),
   ("Factor",
     [["(", "Expression", ")"], ["id"], ["num"], ["+", "Factor"], ["-", "Factor"]])]

/-- `grammar.py` `PARSE_TABLE`: nonterminal → lookahead terminal → production. -/
def PARSE_TABLE : List (String × List (String × List String)) :=
  [("Program", [("program", ["program", "id", ";", "Block", "."])]),
   ("Block",
     [("var", ["Declarations", "begin", "StmtList", "end"]),
      ("begin", ["Declarations", "begin", "StmtList", "end"])]),
   ("Declarations", [("var", ["var", "DeclList"]), ("begin", [EPSILON])]),
   ("DeclList", [("id", ["Decl", "DeclListP"])]),
   ("DeclListP", [("id", ["Decl", "DeclListP"]), ("begin", [EPSILON])]),
   ("Decl", [("id", ["IdList", ":", "Type", ";"])]),
   ("IdList", [("id", ["id", "IdListP"])]),
   ("IdListP", [(",", [",", "id", "IdListP"]), (":", [EPSILON]), (")", [EPSILON])]),
   ("Type", [("integer", ["integer"]), ("real", ["real"]), ("boolean", ["boolean"])]),
   ("StmtList",
     [("id", ["Statement", "StmtListP"]),
      ("if", ["Statement", "StmtListP"]),
      ("while", ["Statement", "StmtListP"]),
      ("read", ["Statement", "StmtListP"]),
      ("write", ["Statement", "StmtListP"]),
      ("begin", ["Statement", "StmtListP"]),
      ("end", ["Statement", "StmtListP"])]),
   ("StmtListP", [(";", [";", "Statement", "StmtListP"]), ("end", [EPSILON])]),
   ("Statement",
     [("id", ["id", ":=", "Expression"]),
      ("if", ["IfStmt"]),
      ("while", ["WhileStmt"]),
      ("read", ["ReadStmt"]),
      ("write", ["WriteStmt"]),
      ("begin", ["begin", "StmtList", "end"]),
      (";", [EPSILON]),
      ("end", [EPSILON]),
      ("else", [EPSILON])]),
   ("IfStmt", [("if", ["if", "BoolExpr", "then", "Statement", "ElsePart"])]),
   ("ElsePart", [("else", ["else", "Statement"]), (";", [EPSILON]), ("end", [EPSILON])]),
   ("WhileStmt", [("while", ["while", "BoolExpr", "do", "Statement"])]),
   ("ReadStmt", [("read", ["read", "(", "IdList", ")"])]),
   ("WriteStmt", [("write", ["write", "(", "ExprList", ")"])]),
   ("ExprList",
     [("(", ["Expression", "ExprListP"]),
      ("id", ["Expression", "ExprListP"]),
      ("num", ["Expression", "ExprListP"]),
      ("+", ["Expression", "ExprListP"]),
      ("-", ["Expression", "ExprListP"])]),
   ("ExprListP", [(",", [",", "Expression", "ExprListP"]), (")", [EPSILON])]),
   ("BoolExpr",
     [("(", ["Expression", "RelOp", "Expression"]),
      ("id", ["Expression", "RelOp", "Expression"]),
      ("num", ["Expression", "RelOp", "Expression"]),
      ("+", ["Expression", "RelOp", "Expression"]),
      ("-", ["Expression", "RelOp", "Expression"])]),
   ("RelOp",
     [("<", ["<"]), (">", [">"]), ("<=", ["<="]), (">=", [">="]),
      ("=", ["="]), ("<>", ["<>"])]),
   ("Expression",
     [("(", ["Term", "ExpressionP"]),
      ("id", ["Term", "ExpressionP"]),
      ("num", ["Term", "ExpressionP"]),
      ("+", ["Term", "ExpressionP"]),
      ("-", ["Term", "ExpressionP"])]),
   ("ExpressionP",
     [("+", ["+", "Term", "ExpressionP"]),
      ("-", ["-", "Term", "ExpressionP"]),
      (")", [EPSILON]), (";", [EPSILON]), (",", [EPSILON]),
      ("then", [EPSILON]), ("do", [EPSILON]), ("end", [EPSILON]),
      ("else", [EPSILON]), ("<", [EPSILON]), (">", [EPSILON]),
      ("<=", [EPSILON]), (">=", [EPSILON]), ("=", [EPSILON]), ("<>", [EPSILON])]),
   ("Term",
     [("(", ["Factor", "TermP"]),
      ("id", ["Factor", "TermP"]),
      ("num", ["Factor", "TermP"]),
      ("+", ["Factor", "TermP"]),
      ("-", ["Factor", "TermP"])]),
   ("TermP",
     [("*", ["*", "Factor", "TermP"]),
      ("/", ["/", "Factor", "TermP"]),
      ("div", ["div", "Factor", "TermP"]),
      ("mod", ["mod", "Factor", "TermP"]),
      ("+", [EPSILON]), ("-", [EPSILON]), (")", [EPSILON]), (";", [EPSILON]),
      (",", [EPSILON]), ("then", [EPSILON]), ("do", [EPSILON]),
      ("end", [EPSILON]), ("else", [EPSILON]), ("<", [EPSILON]),
      (">", [EPSILON]), ("<=", [EPSILON]), (">=", [EPSILON]),
      ("=", [EPSILON]), ("<>", [EPSILON])]),
   ("Factor",
     [("(", ["(", "Expression", ")"]),
      ("id", ["id"]),
      ("num", ["num"]),
      ("+", ["+", "Factor"]),
      ("-", ["-", "Factor"])])]

/-- `grammar.py` `TOKEN_TO_TERMINAL`. -/
def TOKEN_TO_TERMINAL : List (TokenType × String) :=
  [(.PROGRAM, "program"), (.VAR, "var"), (.BEGIN, "begin"), (.END, "end"),
   (.INTEGER, "integer"), (.REAL, "real"), (.BOOLEAN, "boolean"),
   (.IF, "if"), (.THEN, "then"), (.ELSE, "else"), (.WHILE, "while"),
   (.DO, "do"), (.READ, "read"), (.WRITE, "write"), (.DIV, "div"),
   (.MOD, "mod"), (.ID, "id"), (.NUM, "num"), (.PLUS, "+"), (.MINUS, "-"),
   (.MULTIPLY, "*"), (.DIVIDE, "/"), (.ASSIGN, ":="), (.EQUAL, "="),
   (.NOT_EQUAL, "<>"), (.LESS, "<"), (.GREATER, ">"), (.LESS_EQUAL, "<="),
   (.GREATER_EQUAL, ">="), (.LPAREN, "("), (.RPAREN, ")"),
   (.SEMICOLON, ";"), (.COLON, ":"), (.COMMA, ","), (.DOT, "."), (.EOF, "$")]

/-- `grammar.py` `is_terminal`. -/
def is_terminal (sym : String) : Bool := TERMINALS.contains sym || sym = EPSILON

/-- `grammar.py` `is_nonterminal`. -/
def is_nonterminal (sym : String) : Bool := NONTERMINALS.contains sym

/-- `grammar.py` `get_production`: parse-table lookup, `none` on a miss. -/
def get_production (nonterminal terminal : String) : Option (List String) :=
  match PARSE_TABLE.lookup nonterminal with
  | some row => row.lookup terminal
  | none => none

/-! ## Parse tree (`parse_tree.py`) -/

/-- `parse_tree.py` `ParseTreeNode`: grammar symbol, matched lexeme (terminals
only, otherwise empty), and the ordered children. -/
inductive PTree where
  | node (symbol value : String) (children : List PTree)
deriving Repr

def PTree.symbol : PTree → String
  | .node s _ _ => s

def PTree.value : PTree → String
  | .node _ v _ => v

def PTree.children : PTree → List PTree
  | .node _ _ cs => cs

/-- `ParseTreeNode.is_terminal`: childless and not the epsilon marker. -/
def PTree.is_terminal (t : PTree) : Bool :=
  t.children.isEmpty && decide (t.symbol ≠ EPSILON)

/-- `ParseTreeNode.is_epsilon`. -/
def PTree.is_epsilon (t : PTree) : Bool := t.symbol = EPSILON

/-- A path from the root to a node: the sequence of child indices.  This is
the pure-tree rendering of a Python node reference (ownership is strictly
tree-shaped per `parse_tree.py`, so a live reference determines a unique
path). -/
abbrev TreePath := List Nat

mutual
/-- Overwrite the `value` of the node a path points to (a Python
`node.value = ...` through a held reference).  An out-of-tree path leaves
the tree unchanged; the parser only ever uses paths of live nodes. -/
def setValueAt : PTree → TreePath → String → PTree
  | .node s _ cs, [], v' => .node s v' cs
  | .node s v cs, i :: p, v' => .node s v (setValueAtL cs i p v')
def setValueAtL : List PTree → Nat → TreePath → String → List PTree
  | [], _, _, _ => []
  | c :: cs, 0, p, v' => setValueAt c p v' :: cs
  | c :: cs, i+1, p, v' => c :: setValueAtL cs i p v'
end

mutual
/-- `ParseTreeNode.add_child` through a held reference: append one child to
the node a path points to. -/
def addChildAt : PTree → TreePath → PTree → PTree
  | .node s v cs, [], c => .node s v (cs ++ [c])
  | .node s v cs, i :: p, c => .node s v (addChildAtL cs i p c)
def addChildAtL : List PTree → Nat → TreePath → PTree → List PTree
  | [], _, _, _ => []
  | t :: ts, 0, p, c => addChildAt t p c :: ts
  | t :: ts, i+1, p, c => t :: addChildAtL ts i p c
end

/-- Append several children in order (the parser's `for symbol in production:
... top_node.add_child(child)` loop). -/
def addChildrenAt (t : PTree) (p : TreePath) (cs : List PTree) : PTree :=
  cs.foldl (fun acc c => addChildAt acc p c) t

mutual
/-- The visit order of `ParseTree._preorder_helper`: the node itself, then
the children left to right, each visited node reported with its depth; an
epsilon node (and, structurally, its subtree) is suppressed unless
`includeEps` is set. -/
def preorderNodes : PTree → Nat → Bool → List (Nat × PTree)
  | .node s v cs, depth, includeEps =>
    if s = EPSILON ∧ includeEps = false then []
    else (depth, .node s v cs) :: preorderNodesL cs (depth + 1) includeEps
def preorderNodesL : List PTree → Nat → Bool → List (Nat × PTree)
  | [], _, _ => []
  | c :: cs, d, ie => preorderNodes c d ie ++ preorderNodesL cs d ie
end

/-- The line `ParseTree._preorder_helper` emits for one visited node. -/
def formatNode (depth : Nat) (t : PTree) : String :=
  let indent := String.mk (List.replicate (2 * depth) ' ')
  if t.value ≠ "" ∧ t.value ≠ t.symbol then
    indent ++ t.symbol ++ " (" ++ t.value ++ ")"
  else
    indent ++ t.symbol

/-- `ParseTree.preorder_traversal`. -/
def preorder_traversal (t : PTree) (include_epsilon : Bool) : List String :=
  (preorderNodes t 0 include_epsilon).map (fun e => formatNode e.1 e.2)

/-- The preorder traversal (epsilon leaves ignored) restricted to terminal
leaves, as (symbol, recorded value) pairs. -/
def terminalLeafEntries (t : PTree) : List (String × String) :=
  ((preorderNodes t 0 false).filter (fun e => e.2.is_terminal)).map
    (fun e => (e.2.symbol, e.2.value))

mutual
/-- Direct recursive form of `terminalLeafEntries` (proved equal below):
the non-epsilon leaves in left-to-right order. -/
def leafEntries : PTree → List (String × String)
  | .node s v [] => if s = EPSILON then [] else [(s, v)]
  | .node _ _ (c :: cs) => leafEntriesL (c :: cs)
def leafEntriesL : List PTree → List (String × String)
  | [] => []
  | c :: cs => leafEntries c ++ leafEntriesL cs
end

/-! ## Parser (`parser.py`) -/

/-- The three `raise ParserError(...)` sites of `parser.py`: a terminal
mismatch, a missing table entry, and the fall-off-the-loop case
(`"Unexpected end of parsing"`). -/
inductive ParserError where
  | mismatch (expected : String) (token : Token)
  | noProduction (nonterminal terminal : String) (token : Token)
  | unexpectedEndOfParsing
deriving Repr, DecidableEq

/-- `LL1Parser` state: token list, cursor, and the stack of
(grammar symbol, tree-node reference) pairs; the reference is `none` for the
end marker `$` (and a path otherwise).  The current tree is carried
alongside, since node mutations go through paths into it. -/
structure PState where
  tokens : List Token
  pos : Nat
  stack : List (String × Option TreePath)
  tree : PTree
deriving Repr

/-- `LL1Parser.current_token`: clamps to the last token at end of input;
`none` only when the token list is empty (where Python raises `IndexError`). -/
def current_token (s : PState) : Option Token :=
  if s.pos < s.tokens.length then s.tokens.get? s.pos else s.tokens.getLast?

/-- `LL1Parser.get_terminal`: `TOKEN_TO_TERMINAL.get(token.type, token.value)`. -/
def get_terminal (token : Token) : String :=
  (TOKEN_TO_TERMINAL.lookup token.type).getD token.value

/-- `LL1Parser.advance`: move the cursor unless already at the last token. -/
def advanceP (s : PState) : PState :=
  if s.pos < s.tokens.length - 1 then { s with pos := s.pos + 1 } else s

/-- How one `parse` run can end: ACCEPT with the built tree, a raised
`ParserError`, or the `IndexError` Python's `current_token` hits when the
token list is empty. -/
inductive Outcome where
  | accepted (tree : PTree)
  | failed (e : ParserError)
  | crashed
deriving Repr

/-- One iteration's result: stop with an outcome, or continue. -/
inductive StepRes where
  | halt (r : Outcome)
  | next (s : PState)
deriving Repr

/-- One iteration of the `while len(self.stack) > 0` loop of
`LL1Parser.parse`.  An empty stack is the loop falling through to
`raise ParserError("Unexpected end of parsing")`.  The branches follow the
Python body in order; note that when no branch applies the popped entry is
simply discarded (the `if/elif` chain has no `else`). -/
def step (s : PState) : StepRes :=
  match s.stack with
  | [] => .halt (.failed .unexpectedEndOfParsing)
  | (topSymbol, topNode) :: rest =>
    match current_token s with
    | none => .halt .crashed
    | some current =>
      let currentTerminal := get_terminal current
      if topSymbol = "$" ∧ currentTerminal = "$" then
        .halt (.accepted s.tree)
      else if is_terminal topSymbol ∧ topSymbol ≠ EPSILON then
        if topSymbol = currentTerminal then
          let tree' :=
            match topNode with
            | some p => setValueAt s.tree p current.value
            | none => s.tree
          .next { s with tree := tree', stack := rest, pos := (advanceP s).pos }
        else
          .halt (.failed (.mismatch topSymbol current))
      else if topSymbol = EPSILON then
        let tree' :=
          match topNode with
          | some p => addChildAt s.tree p (.node EPSILON "" [])
          | none => s.tree
        .next { s with tree := tree', stack := rest }
      else if is_nonterminal topSymbol then
        match get_production topSymbol currentTerminal with
        | none => .halt (.failed (.noProduction topSymbol currentTerminal current))
        | some production =>
          if production = [EPSILON] then
            let tree' :=
              match topNode with
              | some p => addChildAt s.tree p (.node EPSILON "" [])
              | none => s.tree
            .next { s with tree := tree', stack := rest }
          else
            match topNode with
            | some p =>
              let tree' := addChildrenAt s.tree p
                (production.map (fun sym => PTree.node sym "" []))
              let pushed := production.enum.map
                (fun e => (e.2, some (p ++ [e.1])))
              .next { s with tree := tree', stack := pushed ++ rest }
            | none =>
              let pushed := production.map
                (fun sym => (sym, (none : Option TreePath)))
              .next { s with stack := pushed ++ rest }
      else
        .next { s with stack := rest }

/-- Iterate `step` with an iteration budget; `none` = budget exhausted. -/
def runParser : Nat → PState → Option Outcome
  | 0, _ => none
  | n+1, s =>
    match step s with
    | .halt r => some r
    | .next s' => runParser n s'

/-- The state `LL1Parser.parse` starts from: root node `Program`, stack
`[$, Program]` with `Program` on top (here, at the head). -/
def initParser (tokens : List Token) : PState :=
  { tokens := tokens, pos := 0,
    stack := [("Program", some []), ("$", none)],
    tree := .node "Program" "" [] }

/-- `parser.py` `parse_string`: lex, then parse; a lexer error or a raised
`ParserError` yields `(False, None)`; ACCEPT yields `(True, tree)`.  `none`
stands for an exhausted iteration budget (or the unreachable `IndexError`),
situations in which the Python function does not return normally. -/
def parse_string (fuel : Nat) (source : String) : Option (Bool × Option PTree) :=
  match tokenize source with
  | none => none
  | some (.error _) => some (false, none)
  | some (.ok tokens) =>
    match runParser fuel (initParser tokens) with
    | none => none
    | some (.accepted t) => some (true, some t)
    | some (.failed _) => some (false, none)
    | some .crashed => none

/-! ## The LL(1) table construction

Modelled from the spec: `grammar.py` stores `FIRST`, `FOLLOW` and
`PARSE_TABLE` as static data and contains no construction code; the spec
(§4.2) describes the offline build — FIRST sets over the productions with
propagation through epsilon-deriving symbols, FOLLOW sets by a fixed point
over the productions, then the table filled by: for each production
`A → α` and each terminal `t ∈ FIRST(α)` (or `t ∈ FOLLOW(A)` when `α` can
derive epsilon) set `table[A][t] = α`, where setting an entry twice with a
different production is a conflict that must be reported, not overwritten. -/

/-- Add a symbol to a set-as-list (keeping first-insertion order). -/
def addSym (xs : List String) (s : String) : List String :=
  if xs.contains s then xs else xs ++ [s]

/-- Union of set-as-lists. -/
def unionSyms (xs ys : List String) : List String := ys.foldl addSym xs

/-- Union a set into one key of an association-list-of-sets. -/
def updateSet (m : List (String × List String)) (key : String)
    (add : List String) : List (String × List String) :=
  m.map (fun e => if e.1 = key then (e.1, unionSyms e.2 add) else e)

/-- Look a set up (empty when the key is absent). -/
def getSet (m : List (String × List String)) (key : String) : List String :=
  (m.lookup key).getD []

/-- FIRST of a symbol sequence, given candidate FIRST sets for the
nonterminals: a terminal (or the epsilon marker) begins only itself; a
nonterminal contributes its FIRST minus epsilon and, when it can derive
epsilon, defers to the rest; the empty sequence derives epsilon. -/
def firstOfSeq (fs : List (String × List String)) : List String → List String
  | [] => [EPSILON]
  | sym :: rest =>
    if is_nonterminal sym then
      let f := getSet fs sym
      let noEps := f.filter (fun s => s ≠ EPSILON)
      if f.contains EPSILON then unionSyms noEps (firstOfSeq fs rest) else noEps
    else
      [sym]

/-- One round of the FIRST fixed point: fold every production into the
candidate sets. -/
def firstRound (fs : List (String × List String)) : List (String × List String) :=
  PRODUCTIONS.foldl
    (fun acc e => e.2.foldl (fun acc2 alt => updateSet acc2 e.1 (firstOfSeq acc2 alt)) acc)
    fs

/-- Iterate the FIRST round. -/
def iterRounds (f : List (String × List String) → List (String × List String)) :
    Nat → List (String × List String) → List (String × List String)
  | 0, fs => fs
  | n+1, fs => iterRounds f n (f fs)

/-- The FIRST sets computed from `PRODUCTIONS` (the fixed point is reached
well before ten rounds; stability is proved below). -/
def firstSets : List (String × List String) :=
  iterRounds firstRound 10 (NONTERMINALS.map (fun A => (A, [])))

/-- One production's contribution to the FOLLOW fixed point, against given
FIRST sets `fs`: walking `A → α`, every nonterminal `B` in `α` receives
FIRST of what follows it (minus epsilon) and, when that tail can derive
epsilon, FOLLOW(A). -/
def followSeqPass (fs : List (String × List String)) (A : String) :
    List (String × List String) → List String → List (String × List String)
  | fls, [] => fls
  | fls, sym :: rest =>
    let fls' :=
      if is_nonterminal sym then
        let fr := firstOfSeq fs rest
        let base := fr.filter (fun s => s ≠ EPSILON)
        let add := if fr.contains EPSILON then unionSyms base (getSet fls A) else base
        updateSet fls sym add
      else fls
    followSeqPass fs A fls' rest

/-- One round of the FOLLOW fixed point over every production, against
given FIRST sets. -/
def followRound (fs : List (String × List String))
    (fls : List (String × List String)) : List (String × List String) :=
  PRODUCTIONS.foldl
    (fun acc e => e.2.foldl (fun acc2 alt => followSeqPass fs e.1 acc2 alt) acc)
    fls

/-- The FOLLOW sets computed from `PRODUCTIONS` against the computed FIRST
sets, seeded with `$` in the start symbol's FOLLOW. -/
def followSets : List (String × List String) :=
  iterRounds (followRound firstSets) 12
    (NONTERMINALS.map (fun A => (A, if A = "Program" then ["$"] else [])))

/-- A conflict: (nonterminal, terminal, entry already present, entry the
construction tried to write). -/
structure TableConflict where
  nonterminal : String
  terminal : String
  kept : List String
  attempted : List String
deriving Repr, DecidableEq

/-- The construction's running state: the table built so far and the
conflicts met (first writer kept). -/
structure BuildSt where
  table : List (String × List (String × List String))
  conflicts : List TableConflict
deriving Repr, DecidableEq

/-- Write one table entry, recording (instead of overwriting on) a
conflict. -/
def tableInsert (b : BuildSt) (A t : String) (prod : List String) : BuildSt :=
  match b.table.lookup A with
  | none => { b with table := b.table ++ [(A, [(t, prod)])] }
  | some row =>
    match row.lookup t with
    | none =>
      let tbl' := b.table.map (fun e => if e.1 = A then (e.1, e.2 ++ [(t, prod)]) else e)
      { b with table := tbl' }
    | some old =>
      if old = prod then b
      else { b with conflicts := b.conflicts ++ [⟨A, t, old, prod⟩] }

/-- The LL(1) table construction over `PRODUCTIONS` against given FIRST and
FOLLOW sets (spec §4.2): for each production `A → α`, write `α` at `(A, t)`
for every `t ∈ FIRST(α)` except epsilon, and for every `t ∈ FOLLOW(A)` when
`α` can derive epsilon. -/
def buildParseTableWith (fs fls : List (String × List String)) : BuildSt :=
  PRODUCTIONS.foldl
    (fun b e =>
      e.2.foldl
        (fun b2 alt =>
          let f := firstOfSeq fs alt
          let b3 := (f.filter (fun s => s ≠ EPSILON)).foldl
            (fun bb t => tableInsert bb e.1 t alt) b2
          if f.contains EPSILON then
            (getSet fls e.1).foldl (fun bb t => tableInsert bb e.1 t alt) b3
          else b3)
        b)
    ⟨[], []⟩

/-- The construction run against the computed FIRST and FOLLOW sets. -/
def buildParseTable : BuildSt := buildParseTableWith firstSets followSets

/-- Entry lookup in a built table (same shape as `get_production`). -/
def builtLookup (tbl : List (String × List (String × List String)))
    (A t : String) : Option (List String) :=
  match tbl.lookup A with
  | some row => row.lookup t
  | none => none


/-- Literal snapshots of the FIRST/FOLLOW iteration rounds and of the
finished construction, letting every evaluation step below be checked
against a literal in one shallow round. -/
def firstR1 : List (String × List String) :=
  [("Program", ["program"]),  ("Block", []),  ("Declarations", ["var", "ε"]),  ("DeclList", []),  ("DeclListP", ["ε"]),  ("Decl", []),  ("IdList", ["id"]),  ("IdListP", [",", "ε"]),  ("Type", ["integer", "real", "boolean"]),  ("StmtList", []),  ("StmtListP", [";", "ε"]),  ("Statement", ["id", "begin", "ε"]),  ("AssignStmt", ["id"]),  ("IfStmt", ["if"]),  ("ElsePart", ["else", "ε"]),  ("WhileStmt", ["while"]),  ("ReadStmt", ["read"]),  ("WriteStmt", ["write"]),  ("ExprList", []),  ("ExprListP", [",", "ε"]),  ("BoolExpr", []),  ("RelOp", ["<", ">", "<=", ">=", "=", "<>"]),  ("Expression", []),  ("ExpressionP", ["+", "-", "ε"]),  ("Term", []),  ("TermP", ["*", "/", "div", "mod", "ε"]),  ("Factor", ["(", "id", "num", "+", "-"])]

def firstR2 : List (String × List String) :=
  [("Program", ["program"]),  ("Block", ["var", "begin"]),  ("Declarations", ["var", "ε"]),  ("DeclList", []),  ("DeclListP", ["ε"]),  ("Decl", ["id"]),  ("IdList", ["id"]),  ("IdListP", [",", "ε"]),  ("Type", ["integer", "real", "boolean"]),  ("StmtList", ["id", "begin", ";", "ε"]),  ("StmtListP", [";", "ε"]),  ("Statement", ["id", "begin", "ε", "if", "while", "read", "write"]),  ("AssignStmt", ["id"]),  ("IfStmt", ["if"]),  ("ElsePart", ["else", "ε"]),  ("WhileStmt", ["while"]),  ("ReadStmt", ["read"]),  ("WriteStmt", ["write"]),  ("ExprList", []),  ("ExprListP", [",", "ε"]),  ("BoolExpr", []),  ("RelOp", ["<", ">", "<=", ">=", "=", "<>"]),  ("Expression", []),  ("ExpressionP", ["+", "-", "ε"]),  ("Term", ["(", "id", "num", "+", "-"]),  ("TermP", ["*", "/", "div", "mod", "ε"]),  ("Factor", ["(", "id", "num", "+", "-"])]

def firstR3 : List (String × List String) :=
  [("Program", ["program"]),  ("Block", ["var", "begin"]),  ("Declarations", ["var", "ε"]),  ("DeclList", ["id"]),  ("DeclListP", ["ε", "id"]),  ("Decl", ["id"]),  ("IdList", ["id"]),  ("IdListP", [",", "ε"]),  ("Type", ["integer", "real", "boolean"]),  ("StmtList", ["id", "begin", ";", "ε", "if", "while", "read", "write"]),  ("StmtListP", [";", "ε"]),  ("Statement", ["id", "begin", "ε", "if", "while", "read", "write"]),  ("AssignStmt", ["id"]),  ("IfStmt", ["if"]),  ("ElsePart", ["else", "ε"]),  ("WhileStmt", ["while"]),  ("ReadStmt", ["read"]),  ("WriteStmt", ["write"]),  ("ExprList", []),  ("ExprListP", [",", "ε"]),  ("BoolExpr", []),  ("RelOp", ["<", ">", "<=", ">=", "=", "<>"]),  ("Expression", ["(", "id", "num", "+", "-"]),  ("ExpressionP", ["+", "-", "ε"]),  ("Term", ["(", "id", "num", "+", "-"]),  ("TermP", ["*", "/", "div", "mod", "ε"]),  ("Factor", ["(", "id", "num", "+", "-"])]

def firstR4 : List (String × List String) :=
  [("Program", ["program"]),  ("Block", ["var", "begin"]),  ("Declarations", ["var", "ε"]),  ("DeclList", ["id"]),  ("DeclListP", ["ε", "id"]),  ("Decl", ["id"]),  ("IdList", ["id"]),  ("IdListP", [",", "ε"]),  ("Type", ["integer", "real", "boolean"]),  ("StmtList", ["id", "begin", ";", "ε", "if", "while", "read", "write"]),  ("StmtListP", [";", "ε"]),  ("Statement", ["id", "begin", "ε", "if", "while", "read", "write"]),  ("AssignStmt", ["id"]),  ("IfStmt", ["if"]),  ("ElsePart", ["else", "ε"]),  ("WhileStmt", ["while"]),  ("ReadStmt", ["read"]),  ("WriteStmt", ["write"]),  ("ExprList", ["(", "id", "num", "+", "-"]),  ("ExprListP", [",", "ε"]),  ("BoolExpr", ["(", "id", "num", "+", "-"]),  ("RelOp", ["<", ">", "<=", ">=", "=", "<>"]),  ("Expression", ["(", "id", "num", "+", "-"]),  ("ExpressionP", ["+", "-", "ε"]),  ("Term", ["(", "id", "num", "+", "-"]),  ("TermP", ["*", "/", "div", "mod", "ε"]),  ("Factor", ["(", "id", "num", "+", "-"])]

def followR1 : List (String × List String) :=
  [("Program", ["$"]),  ("Block", ["."]),  ("Declarations", ["begin"]),  ("DeclList", ["begin"]),  ("DeclListP", ["begin"]),  ("Decl", ["id", "begin"]),  ("IdList", [":", ")"]),  ("IdListP", [":"]),  ("Type", [";"]),  ("StmtList", ["end"]),  ("StmtListP", ["end"]),  ("Statement", [";", "end", "else"]),  ("AssignStmt", []),  ("IfStmt", [";", "end"]),  ("ElsePart", [";", "end"]),  ("WhileStmt", [";", "end"]),  ("ReadStmt", [";", "end"]),  ("WriteStmt", [";", "end"]),  ("ExprList", [")"]),  ("ExprListP", [")"]),  ("BoolExpr", ["then", "do"]),  ("RelOp", ["(", "id", "num", "+", "-"]),  ("Expression", [";", "end", ",", ")", "<", ">", "<=", ">=", "=", "<>", "then", "do"]),  ("ExpressionP", [";", "end", ",", ")", "<", ">", "<=", ">=", "=", "<>", "then", "do"]),  ("Term", ["+", "-", ";", "end", ",", ")", "<", ">", "<=", ">=", "=", "<>", "then", "do"]),  ("TermP", ["+", "-", ";", "end", ",", ")", "<", ">", "<=", ">=", "=", "<>", "then", "do"]),  ("Factor", ["*", "/", "div", "mod", "+", "-", ";", "end", ",", ")", "<", ">", "<=", ">=", "=", "<>", "then", "do"])]

def followR2 : List (String × List String) :=
  [("Program", ["$"]),  ("Block", ["."]),  ("Declarations", ["begin"]),  ("DeclList", ["begin"]),  ("DeclListP", ["begin"]),  ("Decl", ["id", "begin"]),  ("IdList", [":", ")"]),  ("IdListP", [":", ")"]),  ("Type", [";"]),  ("StmtList", ["end"]),  ("StmtListP", ["end"]),  ("Statement", [";", "end", "else"]),  ("AssignStmt", []),  ("IfStmt", [";", "end", "else"]),  ("ElsePart", [";", "end", "else"]),  ("WhileStmt", [";", "end", "else"]),  ("ReadStmt", [";", "end", "else"]),  ("WriteStmt", [";", "end", "else"]),  ("ExprList", [")"]),  ("ExprListP", [")"]),  ("BoolExpr", ["then", "do"]),  ("RelOp", ["(", "id", "num", "+", "-"]),  ("Expression", [";", "end", ",", ")", "<", ">", "<=", ">=", "=", "<>", "then", "do", "else"]),  ("ExpressionP", [";", "end", ",", ")", "<", ">", "<=", ">=", "=", "<>", "then", "do", "else"]),  ("Term", ["+", "-", ";", "end", ",", ")", "<", ">", "<=", ">=", "=", "<>", "then", "do", "else"]),  ("TermP", ["+", "-", ";", "end", ",", ")", "<", ">", "<=", ">=", "=", "<>", "then", "do", "else"]),  ("Factor",   ["*", "/", "div", "mod", "+", "-", ";", "end", ",", ")", "<", ">", "<=", ">=", "=", "<>", "then", "do", "else"])]

def builtTableVal : List (String × List (String × List String)) :=
  [("Program", [("program", ["program", "id", ";", "Block", "."])]),  ("Block",   [("var", ["Declarations", "begin", "StmtList", "end"]), ("begin", ["Declarations", "begin", "StmtList", "end"])]),  ("Declarations", [("var", ["var", "DeclList"]), ("begin", ["ε"])]),  ("DeclList", [("id", ["Decl", "DeclListP"])]),  ("DeclListP", [("id", ["Decl", "DeclListP"]), ("begin", ["ε"])]),  ("Decl", [("id", ["IdList", ":", "Type", ";"])]),  ("IdList", [("id", ["id", "IdListP"])]),  ("IdListP", [(",", [",", "id", "IdListP"]), (":", ["ε"]), (")", ["ε"])]),  ("Type", [("integer", ["integer"]), ("real", ["real"]), ("boolean", ["boolean"])]),  ("StmtList",   [("id", ["Statement", "StmtListP"]),    ("begin", ["Statement", "StmtListP"]),    ("if", ["Statement", "StmtListP"]),    ("while", ["Statement", "StmtListP"]),    ("read", ["Statement", "StmtListP"]),    ("write", ["Statement", "StmtListP"]),    (";", ["Statement", "StmtListP"]),    ("end", ["Statement", "StmtListP"])]),  ("StmtListP", [(";", [";", "Statement", "StmtListP"]), ("end", ["ε"])]),  ("Statement",   [("id", ["id", ":=", "Expression"]),    ("if", ["IfStmt"]),    ("while", ["WhileStmt"]),    ("read", ["ReadStmt"]),    ("write", ["WriteStmt"]),    ("begin", ["begin", "StmtList", "end"]),    (";", ["ε"]),    ("end", ["ε"]),    ("else", ["ε"])]),  ("AssignStmt", [("id", ["id", ":=", "Expression"])]),  ("IfStmt", [("if", ["if", "BoolExpr", "then", "Statement", "ElsePart"])]),  ("ElsePart", [("else", ["else", "Statement"]), (";", ["ε"]), ("end", ["ε"])]),  ("WhileStmt", [("while", ["while", "BoolExpr", "do", "Statement"])]),  ("ReadStmt", [("read", ["read", "(", "IdList", ")"])]),  ("WriteStmt", [("write", ["write", "(", "ExprList", ")"])]),  ("ExprList",   [("(", ["Expression", "ExprListP"]),    ("id", ["Expression", "ExprListP"]),    ("num", ["Expression", "ExprListP"]),    ("+", ["Expression", "ExprListP"]),    ("-", ["Expression", "ExprListP"])]),  ("ExprListP", [(",", [",", "Expression", "ExprListP"]), (")", ["ε"])]),  ("BoolExpr",   [("(", ["Expression", "RelOp", "Expression"]),    ("id", ["Expression", "RelOp", "Expression"]),    ("num", ["Expression", "RelOp", "Expression"]),    ("+", ["Expression", "RelOp", "Expression"]),    ("-", ["Expression", "RelOp", "Expression"])]),  ("RelOp", [("<", ["<"]), (">", [">"]), ("<=", ["<="]), (">=", [">="]), ("=", ["="]), ("<>", ["<>"])]),  ("Expression",   [("(", ["Term", "ExpressionP"]),    ("id", ["Term", "ExpressionP"]),    ("num", ["Term", "ExpressionP"]),    ("+", ["Term", "ExpressionP"]),    ("-", ["Term", "ExpressionP"])]),  ("ExpressionP",   [("+", ["+", "Term", "ExpressionP"]),    ("-", ["-", "Term", "ExpressionP"]),    (";", ["ε"]),    ("end", ["ε"]),    (",", ["ε"]),    (")", ["ε"]),    ("<", ["ε"]),    (">", ["ε"]),    ("<=", ["ε"]),    (">=", ["ε"]),    ("=", ["ε"]),    ("<>", ["ε"]),    ("then", ["ε"]),    ("do", ["ε"]),    ("else", ["ε"])]),  ("Term",   [("(", ["Factor", "TermP"]),    ("id", ["Factor", "TermP"]),    ("num", ["Factor", "TermP"]),    ("+", ["Factor", "TermP"]),    ("-", ["Factor", "TermP"])]),  ("TermP",   [("*", ["*", "Factor", "TermP"]),    ("/", ["/", "Factor", "TermP"]),    ("div", ["div", "Factor", "TermP"]),    ("mod", ["mod", "Factor", "TermP"]),    ("+", ["ε"]),    ("-", ["ε"]),    (";", ["ε"]),    ("end", ["ε"]),    (",", ["ε"]),    (")", ["ε"]),    ("<", ["ε"]),    (">", ["ε"]),    ("<=", ["ε"]),    (">=", ["ε"]),    ("=", ["ε"]),    ("<>", ["ε"]),    ("then", ["ε"]),    ("do", ["ε"]),    ("else", ["ε"])]),  ("Factor",   [("(", ["(", "Expression", ")"]), ("id", ["id"]), ("num", ["num"]), ("+", ["+", "Factor"]), ("-", ["-", "Factor"])])]

def builtConflictsVal : List TableConflict :=
  [⟨"ElsePart", "else", ["else", "Statement"], [EPSILON]⟩]

/-! ## Derived notions used by the statements and proofs -/

/-- The (grammar-terminal, lexeme) descriptor of a token. -/
def tokDescr (tk : Token) : String × String := (get_terminal tk, tk.value)

/-- The grammar terminal of the token at an index (empty string out of
range). -/
def termAt (ts : List Token) (i : Nat) : String :=
  ((ts.get? i).map get_terminal).getD ""

/-- The token list is nonempty and its end-of-input terminal `$` appears at
the last position and nowhere else — exactly the shape `tokenize`
produces. -/
def eofOnlyAtEnd (ts : List Token) : Prop :=
  ts ≠ [] ∧ ∀ i, i < ts.length → (termAt ts i = "$" ↔ i = ts.length - 1)

instance (ts : List Token) : Decidable (eofOnlyAtEnd ts) := by
  unfold eofOnlyAtEnd; infer_instance

/-- The token list ends in an EOF token. -/
def endsWithEOF (ts : List Token) : Bool :=
  (ts.getLast?).any (fun tk => tk.type == TokenType.EOF)

/-- The symbols on the parser stack, top first. -/
def stackSyms (s : PState) : List String := s.stack.map (fun e => e.1)

/-- The grammar terminal of the parser's lookahead token. -/
def lookaheadTerm (s : PState) : String :=
  ((current_token s).map get_terminal).getD ""

/-- Tokens of a source text (empty on a lexer failure); convenience for
stating concrete scenarios. -/
def toksOf (src : String) : List Token :=
  match tokenize src with
  | some (.ok ts) => ts
  | _ => []

/-- Extract the accepted tree's terminal-leaf entries from a parse
outcome. -/
def outcomeLeaves : Option Outcome → Option (List (String × String))
  | some (.accepted t) => some (terminalLeafEntries t)
  | _ => none

/-- Extract the error of a failed outcome. -/
def outcomeErr : Option Outcome → Option ParserError
  | some (.failed e) => some e
  | _ => none

/-- Whether an outcome is an ACCEPT. -/
def outcomeAccepted : Option Outcome → Bool
  | some (.accepted _) => true
  | _ => false

/-! ### Termination measure

Fix a lookahead terminal `t` and consider the steps the parser can take
without consuming a token (a "segment").  `canVanish t σ` says the symbol
`σ` can disappear from the stack within such a segment: the epsilon marker
and silently discarded junk symbols can, a terminal cannot (its turn either
consumes or raises), and a nonterminal can exactly when its table entry
under `t` is `[ε]` or a production all of whose symbols can.  `nu t σ`
bounds the number of steps a segment can spend on `σ` before it either
disappears or the segment ends: for a real production this counts only the
vanishing prefix and the first blocking symbol (`cutSyms`) — deeper symbols
are never reached before a token is consumed.  Every non-consuming step
strictly decreases the summed `nu` of the stack up to its first blocker
(`nuStackSyms`), which, lexicographically below the number of unread
tokens, bounds the whole loop. -/
def canVanishAux : Nat → String → String → Bool
  | 0, _, _ => false
  | f+1, t, σ =>
    if σ = EPSILON then true
    else if is_terminal σ then false
    else if is_nonterminal σ then
      match get_production σ t with
      | none => false
      | some prod =>
        if prod = [EPSILON] then true else prod.all (fun x => canVanishAux f t x)
    else true

/-- `canVanishAux` at a recursion depth past its fixed point on this
table. -/
def canVanish (t σ : String) : Bool := canVanishAux 30 t σ

/-- The vanishing prefix of a production together with its first blocking
symbol, if any: the only part a non-consuming segment can ever touch. -/
def cutSyms (t : String) (prod : List String) : List String :=
  let pre := prod.takeWhile (fun σ => canVanish t σ)
  pre ++ (prod.drop pre.length).take 1

def nuAux : Nat → String → String → Nat
  | 0, _, _ => 1
  | f+1, t, σ =>
    if σ = EPSILON then 1
    else if is_terminal σ then 1
    else if is_nonterminal σ then
      match get_production σ t with
      | none => 1
      | some prod =>
        if prod = [EPSILON] then 1
        else 1 + ((cutSyms t prod).map (fun x => nuAux f t x)).sum
    else 1

/-- `nuAux` at a recursion depth past its fixed point on this table. -/
def nu (t σ : String) : Nat := nuAux 30 t σ

/-- Cost of the reachable part of a production. -/
def nuSeqCut (t : String) (prod : List String) : Nat :=
  ((cutSyms t prod).map (fun x => nu t x)).sum

/-- Segment cost of a whole symbol stack: sum `nu` down to (and including)
the first symbol that cannot vanish; nothing deeper is reachable without a
consumption. -/
def nuStackSyms (t : String) : List String → Nat
  | [] => 0
  | σ :: rest => if canVanish t σ then nu t σ + nuStackSyms t rest else nu t σ

/-- `PARSE_TABLE` flattened to (nonterminal, terminal, production) entries. -/
def tableEntriesList : List (String × String × List String) :=
  PARSE_TABLE.foldr (fun e acc => (e.2.map (fun r => (e.1, r.1, r.2))) ++ acc) []

/-! ### The tree-construction invariant (used for claim C1)

`Shape t ts pend` says: the subtree `t` is exactly what the parser has built
of it so far — its completed part's non-epsilon leaves match the consumed
tokens `ts` in order, and its unfinished frontier is `pend`: the
(symbol, path-from-`t`) pairs the parser still has to process, in stack
order (leftmost pending leaf first).  `Kids i cs ts pend` states the same
for a children suffix starting at child index `i`: finished children first,
then at most one child in progress, then untouched placeholders
(`Phs i cs pend`). -/
mutual
inductive Shape : PTree → List Token → List (String × TreePath) → Prop where
  | ph (s : String) (hs : s ≠ EPSILON) : Shape (.node s "" []) [] [(s, [])]
  | tleaf (s : String) (tk : Token) (hs : s ≠ EPSILON) (ht : get_terminal tk = s) :
      Shape (.node s tk.value []) [tk] []
  | eleaf : Shape (.node EPSILON "" []) [] []
  | inner (A : String) (cs : List PTree) (ts : List Token)
      (pend : List (String × TreePath)) (hA : A ≠ EPSILON) (hcs : cs ≠ [])
      (hk : Kids 0 cs ts pend) : Shape (.node A "" cs) ts pend
inductive Kids : Nat → List PTree → List Token → List (String × TreePath) → Prop where
  | nil (i : Nat) : Kids i [] [] []
  | done (i : Nat) (c : PTree) (cs : List PTree) (ts ts' : List Token)
      (pend : List (String × TreePath)) (hc : Shape c ts [])
      (hk : Kids (i+1) cs ts' pend) : Kids i (c :: cs) (ts ++ ts') pend
  | act (i : Nat) (c : PTree) (cs : List PTree) (ts : List Token)
      (q : String × TreePath) (qs : List (String × TreePath))
      (pend' : List (String × TreePath)) (hc : Shape c ts (q :: qs))
      (hp : Phs (i+1) cs pend') :
      Kids i (c :: cs) ts (((q :: qs).map (fun e => (e.1, i :: e.2))) ++ pend')
inductive Phs : Nat → List PTree → List (String × TreePath) → Prop where
  | nil (i : Nat) : Phs i [] []
  | cons (i : Nat) (s : String) (cs : List PTree) (pend : List (String × TreePath))
      (hs : s ≠ EPSILON) (hp : Phs (i+1) cs pend) :
      Phs i (.node s "" [] :: cs) ((s, [i]) :: pend)
end

/-- List-level view of `addChildrenAt` below a fixed child index. -/
def addChildrenAtL (l : List PTree) (j : Nat) (p : TreePath) (cs : List PTree) :
    List PTree :=
  cs.foldl (fun acc c => addChildAtL acc j p c) l

/-- The parser-state invariant behind claim C1: the stack is the pending
frontier of the tree (every entry but the bottom `$` holding the path of
its placeholder node), the tree's `Shape` accounts exactly for the consumed
tokens, and every pending symbol is a grammar symbol other than `$`. -/
def ParserInv (s : PState) : Prop :=
  ∃ pend : List (String × TreePath),
    s.stack = pend.map (fun e => (e.1, some e.2)) ++ [("$", none)] ∧
    Shape s.tree (s.tokens.take s.pos) pend ∧
    (∀ e ∈ pend, (is_terminal e.1 ∨ is_nonterminal e.1) ∧ e.1 ≠ "$" ∧
      e.1 ≠ EPSILON)

/-- The stack-shape invariant behind claims C3 and C4: the bottom of the
stack is always (the yet-unmatched tail of) `… end . $`, and once `end` and
`.` have been matched they are recorded in the consumed input. -/
def StackOK (s : PState) : Prop :=
  (stackSyms s = ["Program", "$"]) ∨
  (∃ xs, stackSyms s = xs ++ ["Block", ".", "$"] ∧ "$" ∉ xs) ∨
  (∃ xs, stackSyms s = xs ++ ["end", ".", "$"] ∧ "$" ∉ xs) ∨
  (stackSyms s = [".", "$"] ∧ 1 ≤ s.pos ∧ termAt s.tokens (s.pos - 1) = "end") ∨
  (stackSyms s = ["$"] ∧ 2 ≤ s.pos ∧ termAt s.tokens (s.pos - 2) = "end" ∧
    termAt s.tokens (s.pos - 1) = ".")

/-- The residual invariant the termination proof needs: nonempty input
whose last terminal is `$`, an in-range cursor, and `$` still on the
stack. -/
def TermInv (s : PState) : Prop :=
  s.tokens ≠ [] ∧ termAt s.tokens (s.tokens.length - 1) = "$" ∧
  s.pos < s.tokens.length ∧ "$" ∈ stackSyms s

/-! ### Concrete scenario data -/

/-- Tokens of the spec's accept scenario
(`program test; var x: integer; begin x := 5 end.`), written out literally
so runs over them evaluate cheaply; the `_src` theorems below check each
list against `tokenize` on the source text. -/
def acceptToks : List Token :=
  [⟨.PROGRAM, "program", 1, 1⟩,  ⟨.ID, "test", 1, 9⟩,  ⟨.SEMICOLON, ";", 1, 13⟩,  ⟨.VAR, "var", 1, 15⟩,  ⟨.ID, "x", 1, 19⟩,  ⟨.COLON, ":", 1, 20⟩,  ⟨.INTEGER, "integer", 1, 22⟩,  ⟨.SEMICOLON, ";", 1, 29⟩,  ⟨.BEGIN, "begin", 1, 31⟩,  ⟨.ID, "x", 1, 37⟩,  ⟨.ASSIGN, ":=", 1, 39⟩,  ⟨.NUM, "5", 1, 42⟩,  ⟨.END, "end", 1, 44⟩,  ⟨.DOT, ".", 1, 47⟩,  ⟨.EOF, "$", 1, 48⟩]

/-- A token sequence with an interior EOF token: the parser accepts it while
the identifier after the interior EOF is never reflected in the tree. -/
def midEofToks : List Token :=
  [⟨.PROGRAM, "program", 1, 1⟩,  ⟨.ID, "t", 1, 9⟩,  ⟨.SEMICOLON, ";", 1, 10⟩,  ⟨.BEGIN, "begin", 1, 12⟩,  ⟨.END, "end", 1, 18⟩,  ⟨.DOT, ".", 1, 21⟩,  ⟨.EOF, "$", 1, 22⟩,  ⟨.ID, "x", 2, 1⟩,  ⟨.EOF, "$", 2, 2⟩]

/-- Tokens of the spec's no-production scenario
(`program t; begin x := end.`). -/
def noProdToks : List Token :=
  [⟨.PROGRAM, "program", 1, 1⟩,  ⟨.ID, "t", 1, 9⟩,  ⟨.SEMICOLON, ";", 1, 10⟩,  ⟨.BEGIN, "begin", 1, 12⟩,  ⟨.ID, "x", 1, 18⟩,  ⟨.ASSIGN, ":=", 1, 20⟩,  ⟨.END, "end", 1, 23⟩,  ⟨.DOT, ".", 1, 26⟩,  ⟨.EOF, "$", 1, 27⟩]

/-- Tokens of a program missing only the trailing dot
(`program t; begin x := ; end`) whose failure is a no-production error away
from end of input. -/
def missingDotToks : List Token :=
  [⟨.PROGRAM, "program", 1, 1⟩,  ⟨.ID, "t", 1, 9⟩,  ⟨.SEMICOLON, ";", 1, 10⟩,  ⟨.BEGIN, "begin", 1, 12⟩,  ⟨.ID, "x", 1, 18⟩,  ⟨.ASSIGN, ":=", 1, 20⟩,  ⟨.SEMICOLON, ";", 1, 23⟩,  ⟨.END, "end", 1, 25⟩,  ⟨.EOF, "$", 1, 28⟩]

/-! # Theorems -/

/-! ## The scenario token lists are what the lexer produces -/

theorem acceptToks_src :
    acceptToks = toksOf "program test; var x: integer; begin x := 5 end." := rfl

theorem midEofToks_src :
    midEofToks = toksOf "program t; begin end." ++ [⟨.ID, "x", 2, 1⟩, ⟨.EOF, "$", 2, 2⟩] := rfl

theorem noProdToks_src : noProdToks = toksOf "program t; begin x := end." := rfl

theorem missingDotToks_src :
    missingDotToks = toksOf "program t; begin x := ; end" := rfl

/-! ## Association-list and table lemmas -/

theorem lookup_mem {α β : Type} [BEq α] [LawfulBEq α] :
    ∀ (l : List (α × β)) (a : α) (b : β), l.lookup a = some b → (a, b) ∈ l := by
  intro l a b h
  induction l with
  | nil => simp [List.lookup] at h
  | cons e es ih =>
    rcases e with ⟨k, v⟩
    rw [List.lookup] at h
    by_cases hk : a == k
    · rw [hk] at h
      cases h
      have : a = k := eq_of_beq hk
      subst this
      exact List.mem_cons_self _ _
    · rw [Bool.not_eq_true] at hk
      rw [hk] at h
      exact List.mem_cons_of_mem _ (ih h)

theorem mem_flattenTable (tbl : List (String × List (String × List String)))
    (A t : String) (row : List (String × List String)) (prod : List String)
    (hA : (A, row) ∈ tbl) (ht : (t, prod) ∈ row) :
    (A, t, prod) ∈ tbl.foldr (fun e acc => (e.2.map (fun r => (e.1, r.1, r.2))) ++ acc) [] := by
  induction tbl with
  | nil => cases hA
  | cons e es ih =>
    rcases List.mem_cons.mp hA with h | h
    · rw [← h]
      exact List.mem_append_left _ (List.mem_map.mpr ⟨(t, prod), ht, rfl⟩)
    · exact List.mem_append_right _ (ih h)

theorem mem_tableEntriesList {A t : String} {row : List (String × List String)}
    {prod : List String} (hA : (A, row) ∈ PARSE_TABLE) (ht : (t, prod) ∈ row) :
    (A, t, prod) ∈ tableEntriesList :=
  mem_flattenTable PARSE_TABLE A t row prod hA ht

theorem get_production_mem {A t : String} {prod : List String}
    (h : get_production A t = some prod) : (A, t, prod) ∈ tableEntriesList := by
  unfold get_production at h
  rcases hr : PARSE_TABLE.lookup A with _ | row
  · rw [hr] at h; cases h
  · rw [hr] at h
    exact mem_tableEntriesList (lookup_mem _ _ _ hr) (lookup_mem _ _ _ h)

/-- The facts about the stored parse table that the invariance and
termination arguments use, checked entry by entry. -/
theorem tableFacts : ∀ e ∈ tableEntriesList,
    e.2.1 ≠ "$" ∧ e.2.2 ≠ [] ∧ ¬ "$" ∈ e.2.2 ∧
    (e.2.2 ≠ [EPSILON] → ¬ EPSILON ∈ e.2.2) ∧
    (∀ σ ∈ e.2.2, is_terminal σ = true ∨ is_nonterminal σ = true) ∧
    (e.2.2 ≠ [EPSILON] → nu e.2.1 e.1 = 1 + nuSeqCut e.2.1 e.2.2) ∧
    canVanish e.2.1 e.1 = (e.2.2 = [EPSILON] || e.2.2.all (fun x => canVanish e.2.1 x)) := by
  decide

/-- The two nonterminals whose productions carry the `end . $` suffix
expand the same way under every lookahead that has an entry. -/
theorem rowFacts : ∀ e ∈ tableEntriesList,
    (e.1 = "Program" → e.2.2 = ["program", "id", ";", "Block", "."]) ∧
    (e.1 = "Block" → e.2.2 = ["Declarations", "begin", "StmtList", "end"]) := by
  decide

/-- `TOKEN_TO_TERMINAL` is total on token categories. -/
theorem lookupTT_total : ∀ tt : TokenType, (TOKEN_TO_TERMINAL.lookup tt).isSome := by
  decide

/-- Which token categories map to the terminals the end-of-program argument
tracks. -/
theorem lookupTT_inv : ∀ tt : TokenType,
    (TOKEN_TO_TERMINAL.lookup tt = some "$" ↔ tt = .EOF) ∧
    (TOKEN_TO_TERMINAL.lookup tt = some "end" ↔ tt = .END) ∧
    (TOKEN_TO_TERMINAL.lookup tt = some "." ↔ tt = .DOT) := by
  decide

theorem get_terminal_eq_lookup (tk : Token) :
    TOKEN_TO_TERMINAL.lookup tk.type = some (get_terminal tk) := by
  unfold get_terminal
  rcases h : TOKEN_TO_TERMINAL.lookup tk.type with _ | s
  · exact absurd (h ▸ lookupTT_total tk.type) (by simp)
  · rfl

theorem get_terminal_dollar {tk : Token} : get_terminal tk = "$" ↔ tk.type = .EOF := by
  constructor
  · intro h
    exact ((lookupTT_inv tk.type).1).mp (h ▸ get_terminal_eq_lookup tk)
  · intro h
    have := get_terminal_eq_lookup tk
    rw [h] at this
    have h2 : TOKEN_TO_TERMINAL.lookup TokenType.EOF = some "$" := by decide
    rw [h2] at this
    exact (Option.some_inj.mp this).symm

/-! ## Step-level lemmas -/

theorem advanceP_pos (s : PState) :
    (advanceP s).pos = if s.pos < s.tokens.length - 1 then s.pos + 1 else s.pos := by
  unfold advanceP
  split <;> rfl

/-- Full case analysis of a continuing parser step: the popped entry, the
current token, and one of the five ways the Python loop body can fall
through to the next iteration. -/
theorem step_next_cases {s s' : PState} (h : step s = .next s') :
    ∃ top topN rest cur, s.stack = (top, topN) :: rest ∧
      current_token s = some cur ∧ s'.tokens = s.tokens ∧
      (((is_terminal top ∧ top ≠ EPSILON) ∧ top = get_terminal cur ∧
        ¬(top = "$" ∧ get_terminal cur = "$") ∧
        s'.pos = (advanceP s).pos ∧ s'.stack = rest ∧
        s'.tree = (match topN with
                   | some p => setValueAt s.tree p cur.value
                   | none => s.tree)) ∨
       (top = EPSILON ∧ s'.pos = s.pos ∧ s'.stack = rest ∧
        s'.tree = (match topN with
                   | some p => addChildAt s.tree p (.node EPSILON "" [])
                   | none => s.tree)) ∨
       (¬(is_terminal top ∧ top ≠ EPSILON) ∧ top ≠ EPSILON ∧
        is_nonterminal top = true ∧
        get_production top (get_terminal cur) = some [EPSILON] ∧
        s'.pos = s.pos ∧ s'.stack = rest ∧
        s'.tree = (match topN with
                   | some p => addChildAt s.tree p (.node EPSILON "" [])
                   | none => s.tree)) ∨
       (∃ prod, ¬(is_terminal top ∧ top ≠ EPSILON) ∧ top ≠ EPSILON ∧
        is_nonterminal top = true ∧
        get_production top (get_terminal cur) = some prod ∧ prod ≠ [EPSILON] ∧
        s'.pos = s.pos ∧
        ((∃ p, topN = some p ∧
           s'.stack = prod.enum.map (fun e => (e.2, some (p ++ [e.1]))) ++ rest ∧
           s'.tree = addChildrenAt s.tree p (prod.map (fun σ => PTree.node σ "" []))) ∨
         (topN = none ∧
           s'.stack = prod.map (fun σ => (σ, (none : Option TreePath))) ++ rest ∧
           s'.tree = s.tree))) ∨
       (¬(is_terminal top ∧ top ≠ EPSILON) ∧ top ≠ EPSILON ∧
        is_nonterminal top = false ∧
        s'.pos = s.pos ∧ s'.stack = rest ∧ s'.tree = s.tree)) := by
  rcases hs : s.stack with _ | ⟨⟨top, topN⟩, rest⟩
  · unfold step at h; rw [hs] at h; cases h
  · rcases hc : current_token s with _ | cur
    · unfold step at h; rw [hs, hc] at h; cases h
    · refine ⟨top, topN, rest, cur, rfl, rfl, ?_⟩
      unfold step at h
      rw [hs, hc] at h
      dsimp only at h
      split at h
      · cases h
      · rename_i hacc
        split at h
        · rename_i hterm
          split at h
          · rename_i hmatch
            cases h
            exact ⟨rfl, Or.inl ⟨hterm, hmatch, hacc, rfl, rfl, rfl⟩⟩
          · cases h
        · rename_i hterm
          split at h
          · rename_i heps
            cases h
            exact ⟨rfl, Or.inr (Or.inl ⟨heps, rfl, rfl, rfl⟩)⟩
          · rename_i heps
            split at h
            · rename_i hnt
              split at h
              · cases h
              · rename_i prod hp
                split at h
                · rename_i hpe
                  cases h
                  exact ⟨rfl, Or.inr (Or.inr (Or.inl
                    ⟨hterm, heps, hnt, hpe ▸ hp, rfl, rfl, rfl⟩))⟩
                · rename_i hpe
                  rcases topN with _ | p
                  · dsimp only at h
                    cases h
                    exact ⟨rfl, Or.inr (Or.inr (Or.inr (Or.inl
                      ⟨prod, hterm, heps, hnt, hp, hpe, rfl,
                        Or.inr ⟨rfl, rfl, rfl⟩⟩)))⟩
                  · dsimp only at h
                    cases h
                    exact ⟨rfl, Or.inr (Or.inr (Or.inr (Or.inl
                      ⟨prod, hterm, heps, hnt, hp, hpe, rfl,
                        Or.inl ⟨p, rfl, rfl, rfl⟩⟩)))⟩
            · rename_i hnt
              cases h
              exact ⟨rfl, Or.inr (Or.inr (Or.inr (Or.inr
                ⟨hterm, heps, by simpa using hnt, rfl, rfl, rfl⟩)))⟩

/-- An accepting halt pops the end marker under an end-of-input lookahead
and returns the current tree. -/
theorem step_accept_cases {s : PState} {T : PTree}
    (h : step s = .halt (.accepted T)) :
    T = s.tree ∧ ∃ topN rest cur, s.stack = ("$", topN) :: rest ∧
      current_token s = some cur ∧ get_terminal cur = "$" := by
  rcases hs : s.stack with _ | ⟨⟨top, topN⟩, rest⟩
  · unfold step at h; rw [hs] at h; cases h
  · rcases hc : current_token s with _ | cur
    · unfold step at h; rw [hs, hc] at h; cases h
    · unfold step at h
      rw [hs, hc] at h
      dsimp only at h
      split at h
      · rename_i hacc
        cases h
        exact ⟨rfl, topN, rest, cur, hacc.1 ▸ rfl, rfl, hacc.2⟩
      · split at h
        · split at h <;> cases h
        · split at h
          · cases h
          · split at h
            · split at h
              · cases h
              · split at h
                · cases h
                · split at h <;> cases h
            · cases h

/-- The fall-off-the-loop error needs an empty stack, and the `IndexError`
model needs an empty token list. -/
theorem step_halt_kinds {s : PState} {r : Outcome} (h : step s = .halt r) :
    (r = .failed .unexpectedEndOfParsing → s.stack = []) ∧
    (r = .crashed → current_token s = none) := by
  rcases hs : s.stack with _ | ⟨⟨top, topN⟩, rest⟩
  · exact ⟨fun _ => rfl, fun hr => by
      unfold step at h; rw [hs] at h; cases h; cases hr⟩
  · rcases hc : current_token s with _ | cur
    · refine ⟨?_, fun _ => rfl⟩
      unfold step at h; rw [hs] at h; rw [hc] at h; cases h
      intro hr; cases hr
    · constructor <;> intro hr <;> subst hr <;>
        · unfold step at h
          rw [hs, hc] at h
          dsimp only at h
          split at h
          · cases h
          · split at h
            · split at h <;> cases h
            · split at h
              · cases h
              · split at h
                · split at h
                  · cases h
                  · split at h
                    · cases h
                    · split at h <;> cases h
                · cases h
/-! ## Termination of the parse loop -/

theorem nuAux_pos : ∀ (f : Nat) (t σ : String), 1 ≤ nuAux f t σ := by
  intro f t σ
  match f with
  | 0 => exact Nat.le_refl 1
  | f+1 =>
    unfold nuAux
    split
    · exact Nat.le_refl 1
    · split
      · exact Nat.le_refl 1
      · split
        · split
          · exact Nat.le_refl 1
          · split
            · exact Nat.le_refl 1
            · exact Nat.le_add_right 1 _
        · exact Nat.le_refl 1

theorem nu_pos (t σ : String) : 1 ≤ nu t σ := nuAux_pos 30 t σ

/-- Unfolding `canVanish` one step (the inner recursion at depth 29). -/
theorem canVanish_unfold (t σ : String) :
    canVanish t σ =
      if σ = EPSILON then true
      else if is_terminal σ then false
      else if is_nonterminal σ then
        match get_production σ t with
        | none => false
        | some prod =>
          if prod = [EPSILON] then true else prod.all (fun x => canVanishAux 29 t x)
      else true := rfl

/-- Unfolding `nu` one step. -/
theorem nu_unfold (t σ : String) :
    nu t σ =
      if σ = EPSILON then 1
      else if is_terminal σ then 1
      else if is_nonterminal σ then
        match get_production σ t with
        | none => 1
        | some prod =>
          if prod = [EPSILON] then 1
          else 1 + ((cutSyms t prod).map (fun x => nuAux 29 t x)).sum
      else 1 := rfl

theorem canVanish_eps (t : String) : canVanish t EPSILON = true := by
  rw [canVanish_unfold]; simp

theorem canVanish_terminal {t σ : String} (h1 : is_terminal σ = true)
    (h2 : σ ≠ EPSILON) : canVanish t σ = false := by
  rw [canVanish_unfold, if_neg h2, if_pos h1]

theorem canVanish_junk {t σ : String} (h2 : σ ≠ EPSILON)
    (h1 : is_terminal σ = false) (h3 : is_nonterminal σ = false) :
    canVanish t σ = true := by
  rw [canVanish_unfold, if_neg h2]
  rw [h1, h3]
  simp

theorem nu_eps (t : String) : nu t EPSILON = 1 := by
  rw [nu_unfold]; simp

theorem nu_junk {t σ : String} (h2 : σ ≠ EPSILON) (h1 : is_terminal σ = false)
    (h3 : is_nonterminal σ = false) : nu t σ = 1 := by
  rw [nu_unfold, if_neg h2, h1, h3]
  simp

/-- The key splitting law of the stack measure: the measure of a pushed
production followed by the old stack is the production's reachable cost
plus — only when the whole production can vanish — the old measure. -/
theorem nuStackSyms_append (t : String) (l₁ l₂ : List String) :
    nuStackSyms t (l₁ ++ l₂) =
      nuSeqCut t l₁ +
        (if l₁.all (fun x => canVanish t x) then nuStackSyms t l₂ else 0) := by
  induction l₁ with
  | nil => simp [nuSeqCut, cutSyms, nuStackSyms]
  | cons σ l₁' ih =>
    by_cases hv : canVanish t σ
    · have hcut : cutSyms t (σ :: l₁') = σ :: cutSyms t l₁' := by
        unfold cutSyms
        rw [List.takeWhile_cons_of_pos (by simpa using hv)]
        simp
      calc nuStackSyms t ((σ :: l₁') ++ l₂)
          = nu t σ + nuStackSyms t (l₁' ++ l₂) := by
            simp [nuStackSyms, hv]
        _ = nu t σ + (nuSeqCut t l₁' +
              (if l₁'.all (fun x => canVanish t x) then nuStackSyms t l₂ else 0)) := by
            rw [ih]
        _ = nuSeqCut t (σ :: l₁') +
              (if (σ :: l₁').all (fun x => canVanish t x) then nuStackSyms t l₂ else 0) := by
            simp [nuSeqCut, hcut, List.all_cons, hv, Nat.add_assoc]
    · have hv' : canVanish t σ = false := by simpa using hv
      have hcut : cutSyms t (σ :: l₁') = [σ] := by
        unfold cutSyms
        rw [List.takeWhile_cons_of_neg (by simpa using hv)]
        simp
      calc nuStackSyms t ((σ :: l₁') ++ l₂) = nu t σ := by
            simp [nuStackSyms, hv']
        _ = nuSeqCut t (σ :: l₁') +
              (if (σ :: l₁').all (fun x => canVanish t x) then nuStackSyms t l₂ else 0) := by
            simp [nuSeqCut, hcut, List.all_cons, hv']

theorem nuStackSyms_cons (t σ : String) (l : List String) :
    nuStackSyms t (σ :: l) =
      if canVanish t σ then nu t σ + nuStackSyms t l else nu t σ := rfl

theorem current_token_eq {s : PState} (h : s.pos < s.tokens.length) :
    current_token s = s.tokens.get? s.pos := by
  unfold current_token
  rw [if_pos h]

theorem lookahead_eq_termAt {s : PState} {cur : Token}
    (hp : s.pos < s.tokens.length) (hc : current_token s = some cur) :
    termAt s.tokens s.pos = get_terminal cur := by
  unfold termAt
  rw [← current_token_eq hp, hc]
  rfl

/-- A continuing step keeps the token list, keeps the invariant, and either
consumes one token or keeps the cursor while strictly decreasing the stack
measure under the (then unchanged) lookahead. -/
theorem step_next_measure {s s' : PState} (h : step s = .next s') (hInv : TermInv s) :
    s'.tokens = s.tokens ∧ TermInv s' ∧
    ((s'.pos = s.pos + 1 ∧ s.pos < s.tokens.length - 1) ∨
     (s'.pos = s.pos ∧
      nuStackSyms (lookaheadTerm s) (stackSyms s') <
        nuStackSyms (lookaheadTerm s) (stackSyms s))) := by
  obtain ⟨hne, hlast, hposlt, hdol⟩ := hInv
  obtain ⟨top, topN, rest, cur, hs, hc, htoks, hcase⟩ := step_next_cases h
  have hlook : lookaheadTerm s = get_terminal cur := by
    unfold lookaheadTerm; rw [hc]; rfl
  have hcurT : termAt s.tokens s.pos = get_terminal cur := lookahead_eq_termAt hposlt hc
  have hsyms : stackSyms s = top :: rest.map (fun e => e.1) := by
    unfold stackSyms; rw [hs]; rfl
  rcases hcase with hmatch | heps | hepsprod | hreal | hjunk
  · -- terminal match: consumes
    obtain ⟨⟨hterm, hne'⟩, hm, hacc, hpos, hstk, _⟩ := hmatch
    have htopdol : top ≠ "$" := by
      intro hd
      exact hacc ⟨hd, hd ▸ hm.symm⟩
    have hcurdol : get_terminal cur ≠ "$" := hm ▸ htopdol
    have hposne : s.pos ≠ s.tokens.length - 1 := by
      intro he
      exact hcurdol (by rw [← hcurT, he, hlast])
    have hlt : s.pos < s.tokens.length - 1 :=
      Nat.lt_of_le_of_ne (Nat.le_sub_one_of_lt hposlt) hposne
    refine ⟨htoks, ⟨htoks ▸ hne, htoks ▸ hlast, ?_, ?_⟩, Or.inl ⟨?_, hlt⟩⟩
    · rw [htoks, hpos, advanceP_pos, if_pos hlt]
      omega
    · have : "$" ∈ stackSyms s := hdol
      rw [hsyms] at this
      rcases List.mem_cons.mp this with hd | hd
      · exact absurd hd.symm htopdol
      · unfold stackSyms; rw [hstk]; exact hd
    · rw [hpos, advanceP_pos, if_pos hlt]
  · -- epsilon marker popped: measure drops by nu of ε
    obtain ⟨htop, hpos, hstk, _⟩ := heps
    refine ⟨htoks, ⟨htoks ▸ hne, htoks ▸ hlast, htoks ▸ hpos ▸ hposlt, ?_⟩, Or.inr ⟨hpos, ?_⟩⟩
    · have : "$" ∈ stackSyms s := hdol
      rw [hsyms] at this
      rcases List.mem_cons.mp this with hd | hd
      · exact absurd (htop ▸ hd.symm) (by decide)
      · unfold stackSyms; rw [hstk]; exact hd
    · have hs' : stackSyms s' = rest.map (fun e => e.1) := by
        unfold stackSyms; rw [hstk]
      rw [hs', hsyms, htop]
      rw [nuStackSyms_cons, canVanish_eps, if_pos rfl]
      have := nu_pos (lookaheadTerm s) EPSILON
      omega
  · -- epsilon production applied: nonterminal vanishes
    obtain ⟨hterm, hne', hnt, hp, hpos, hstk, _⟩ := hepsprod
    have hmem := get_production_mem hp
    have hfacts := tableFacts _ hmem
    have hvan : canVanish (get_terminal cur) top = true := by
      have := hfacts.2.2.2.2.2.2
      simp only at this
      rw [this]
      simp
    have htopdol : top ≠ "$" := by
      intro hd
      exact absurd (hd ▸ hnt) (by decide)
    refine ⟨htoks, ⟨htoks ▸ hne, htoks ▸ hlast, htoks ▸ hpos ▸ hposlt, ?_⟩, Or.inr ⟨hpos, ?_⟩⟩
    · have : "$" ∈ stackSyms s := hdol
      rw [hsyms] at this
      rcases List.mem_cons.mp this with hd | hd
      · exact absurd hd.symm htopdol
      · unfold stackSyms; rw [hstk]; exact hd
    · have hs' : stackSyms s' = rest.map (fun e => e.1) := by
        unfold stackSyms; rw [hstk]
      rw [hs', hsyms, hlook]
      rw [nuStackSyms_cons, if_pos hvan]
      have := nu_pos (get_terminal cur) top
      omega
  · -- real production applied: reachable cost drops by one
    obtain ⟨prod, hterm, hne', hnt, hp, hpe, hpos, hsub⟩ := hreal
    have hmem := get_production_mem hp
    have hfacts := tableFacts _ hmem
    have hFP1 : nu (get_terminal cur) top = 1 + nuSeqCut (get_terminal cur) prod := by
      have := hfacts.2.2.2.2.2.1
      exact this hpe
    have hFP2 : canVanish (get_terminal cur) top =
        (prod = [EPSILON] || prod.all (fun x => canVanish (get_terminal cur) x)) :=
      hfacts.2.2.2.2.2.2
    have htopdol : top ≠ "$" := by
      intro hd
      exact absurd (hd ▸ hnt) (by decide)
    have hstkS : stackSyms s' = prod ++ rest.map (fun e => e.1) := by
      rcases hsub with ⟨p, _, hstk, _⟩ | ⟨_, hstk, _⟩
      · unfold stackSyms
        rw [hstk, List.map_append, List.map_map]
        congr 1
        have h1 : ((fun (e : String × Option TreePath) => e.1) ∘
            fun (e : Nat × String) => (e.2, some (p ++ [e.1]))) = Prod.snd := rfl
        rw [h1]
        exact List.enum_map_snd prod
      · unfold stackSyms
        rw [hstk, List.map_append, List.map_map]
        congr 1
        have h2 : ((fun (e : String × Option TreePath) => e.1) ∘
            fun (σ : String) => (σ, (none : Option TreePath))) = id := rfl
        rw [h2, List.map_id]
    refine ⟨htoks, ⟨htoks ▸ hne, htoks ▸ hlast, htoks ▸ hpos ▸ hposlt, ?_⟩, Or.inr ⟨hpos, ?_⟩⟩
    · have hd : "$" ∈ stackSyms s := hdol
      rw [hsyms] at hd
      rcases List.mem_cons.mp hd with hd | hd
      · exact absurd hd.symm htopdol
      · rw [hstkS]
        exact List.mem_append_right _ hd
    · rw [hstkS, hsyms, hlook]
      rw [nuStackSyms_append]
      have hold : nuStackSyms (get_terminal cur) (top :: rest.map (fun e => e.1)) =
          if canVanish (get_terminal cur) top then
            nu (get_terminal cur) top +
              nuStackSyms (get_terminal cur) (rest.map (fun e => e.1))
          else nu (get_terminal cur) top := rfl
      rw [hold]
      by_cases hall : prod.all (fun x => canVanish (get_terminal cur) x) = true
      · have hvan : canVanish (get_terminal cur) top = true := by
          rw [hFP2, hall, Bool.or_true]
        rw [if_pos hall, if_pos hvan, hFP1]
        omega
      · have hall' : prod.all (fun x => canVanish (get_terminal cur) x) = false :=
          Bool.eq_false_iff.mpr hall
        have hvan : canVanish (get_terminal cur) top = false := by
          rw [hFP2, hall', Bool.or_false]
          exact decide_eq_false hpe
        rw [if_neg hall, if_neg (by rw [hvan]; exact Bool.false_ne_true), hFP1]
        omega
  · -- unrecognized symbol silently discarded
    obtain ⟨hterm, hne', hnt, hpos, hstk, _⟩ := hjunk
    have htermF : is_terminal top = false := by
      cases hb : is_terminal top
      · rfl
      · exact absurd ⟨hb, hne'⟩ hterm
    have htopdol : top ≠ "$" := by
      intro hd
      rw [hd] at htermF
      exact absurd htermF (by decide)
    refine ⟨htoks, ⟨htoks ▸ hne, htoks ▸ hlast, htoks ▸ hpos ▸ hposlt, ?_⟩, Or.inr ⟨hpos, ?_⟩⟩
    · have : "$" ∈ stackSyms s := hdol
      rw [hsyms] at this
      rcases List.mem_cons.mp this with hd | hd
      · exact absurd hd.symm htopdol
      · unfold stackSyms; rw [hstk]; exact hd
    · have hs' : stackSyms s' = rest.map (fun e => e.1) := by
        unfold stackSyms; rw [hstk]
      have hvan : canVanish (lookaheadTerm s) top = true :=
        canVanish_junk hne' htermF hnt
      rw [hs', hsyms]
      rw [nuStackSyms_cons, if_pos hvan]
      have := nu_pos (lookaheadTerm s) top
      omega

theorem runParser_succ (n : Nat) (s : PState) :
    runParser (n+1) s =
      match step s with
      | .halt r => some r
      | .next s' => runParser n s' := rfl

/-- From any state satisfying the residual invariant, the loop reaches an
outcome, and that outcome is neither the fall-off-the-loop error nor the
empty-token-list crash. -/
theorem runReaches : ∀ (rem μ : Nat) (s : PState), TermInv s →
    s.tokens.length - s.pos = rem →
    nuStackSyms (lookaheadTerm s) (stackSyms s) = μ →
    ∃ n r, runParser n s = some r ∧
      r ≠ .failed .unexpectedEndOfParsing ∧ r ≠ .crashed := by
  intro rem
  induction rem using Nat.strong_induction_on with
  | _ rem ihRem =>
    intro μ
    induction μ using Nat.strong_induction_on with
    | _ μ ihMu =>
      intro s hInv hrem hmu
      rcases hstep : step s with r | s'
      · refine ⟨1, r, by simp [runParser, hstep], ?_, ?_⟩
        · intro hr
          have hemp := (step_halt_kinds hstep).1 hr
          have hd := hInv.2.2.2
          rw [show stackSyms s = [] from by unfold stackSyms; rw [hemp]; rfl] at hd
          cases hd
        · intro hr
          have hnone := (step_halt_kinds hstep).2 hr
          obtain ⟨hne, _, hposlt, _⟩ := hInv
          rw [current_token_eq hposlt] at hnone
          exact absurd hposlt (by simpa using List.get?_eq_none.mp hnone)
      · obtain ⟨htoks, hInv', hdec⟩ := step_next_measure hstep hInv
        rcases hdec with ⟨hpos, hlt⟩ | ⟨hpos, hlt⟩
        · have hrem' : s'.tokens.length - s'.pos < rem := by
            rw [htoks, hpos]
            omega
          obtain ⟨n, r, hrun, h1, h2⟩ := ihRem _ hrem' _ s' hInv' rfl rfl
          exact ⟨n+1, r, by rw [runParser_succ, hstep]; exact hrun, h1, h2⟩
        · have hlook' : lookaheadTerm s' = lookaheadTerm s := by
            unfold lookaheadTerm current_token
            rw [htoks, hpos]
          have hmu' : nuStackSyms (lookaheadTerm s') (stackSyms s') < μ := by
            rw [hlook', hmu] at *
            exact hlook' ▸ hlt
          obtain ⟨n, r, hrun, h1, h2⟩ := ihMu _ hmu' s' hInv'
            (by rw [htoks, hpos]; exact hrem) rfl
          exact ⟨n+1, r, by rw [runParser_succ, hstep]; exact hrun, h1, h2⟩

/-! ## The stack always carries `end . $`: accepted inputs end that way -/

theorem map_fst_enum_push (prod : List String) (p : TreePath)
    (rest : List (String × Option TreePath)) :
    ((prod.enum.map (fun e => (e.2, some (p ++ [e.1]))) ++ rest).map
      (fun e => e.1)) = prod ++ rest.map (fun e => e.1) := by
  rw [List.map_append, List.map_map]
  congr 1
  have h1 : ((fun (e : String × Option TreePath) => e.1) ∘
      fun (e : Nat × String) => (e.2, some (p ++ [e.1]))) = Prod.snd := rfl
  rw [h1]
  exact List.enum_map_snd prod

theorem map_fst_none_push (prod : List String)
    (rest : List (String × Option TreePath)) :
    ((prod.map (fun σ => (σ, (none : Option TreePath))) ++ rest).map
      (fun e => e.1)) = prod ++ rest.map (fun e => e.1) := by
  rw [List.map_append, List.map_map]
  congr 1
  have h2 : ((fun (e : String × Option TreePath) => e.1) ∘
      fun (σ : String) => (σ, (none : Option TreePath))) = id := rfl
  rw [h2, List.map_id]

theorem match_pos_succ {s : PState} {cur : Token} (hInv : TermInv s)
    (hc : current_token s = some cur) (hcur : get_terminal cur ≠ "$") :
    (advanceP s).pos = s.pos + 1 ∧ termAt s.tokens s.pos = get_terminal cur := by
  obtain ⟨hne, hlast, hposlt, _⟩ := hInv
  have hcurT := lookahead_eq_termAt hposlt hc
  have hposne : s.pos ≠ s.tokens.length - 1 := fun he => hcur (by rw [← hcurT, he, hlast])
  have hlt : s.pos < s.tokens.length - 1 :=
    Nat.lt_of_le_of_ne (Nat.le_sub_one_of_lt hposlt) hposne
  exact ⟨by rw [advanceP_pos, if_pos hlt], hcurT⟩

/-- One continuing step preserves the `end . $` stack-shape invariant. -/
theorem stackOK_next {s s' : PState} (h : step s = .next s') (hInv : TermInv s)
    (hOK : StackOK s) : StackOK s' := by
  obtain ⟨top, topN, rest, cur, hs, hc, htoks, hcase⟩ := step_next_cases h
  have hsyms : stackSyms s = top :: rest.map (fun e => e.1) := by
    unfold stackSyms; rw [hs]; rfl
  unfold StackOK
  rw [htoks]
  rcases hOK with hσ | ⟨xs, hσ, hdx⟩ | ⟨xs, hσ, hdx⟩ | ⟨hσ, hp1, he1⟩ | ⟨hσ, hp2, he2, hd2⟩
  · -- shape 1: [Program, $]
    rw [hsyms] at hσ
    obtain ⟨h1, h2⟩ := List.cons.inj hσ
    subst h1
    rcases hcase with ⟨⟨ht, _⟩, _⟩ | ⟨ht, _⟩ | ⟨_, _, _, hp0, _⟩ | ⟨prod, _, _, _, hp, hpe, _, hsub⟩ | ⟨_, _, ht, _⟩
    · exact absurd ht (by decide)
    · exact absurd ht (by decide)
    · have hrow := (rowFacts _ (get_production_mem hp0)).1 rfl
      simp only at hrow
      exact absurd hrow (by decide)
    · have hrow := (rowFacts _ (get_production_mem hp)).1 rfl
      simp only at hrow
      subst hrow
      have hσ' : stackSyms s' = ["program", "id", ";", "Block", "."] ++ rest.map (fun e => e.1) := by
        rcases hsub with ⟨p, _, hstk, _⟩ | ⟨_, hstk, _⟩
        · unfold stackSyms; rw [hstk]; exact map_fst_enum_push _ p rest
        · unfold stackSyms; rw [hstk]; exact map_fst_none_push _ rest
      refine Or.inr (Or.inl ⟨["program", "id", ";"], ?_, by decide⟩)
      rw [hσ', h2]
      rfl
    · exact absurd ht (by decide)
  · -- shape 2: xs ++ [Block, ., $]
    rcases xs with _ | ⟨c, xs'⟩
    · rw [hsyms] at hσ
      obtain ⟨h1, h2⟩ := List.cons.inj hσ
      subst h1
      rcases hcase with ⟨⟨ht, _⟩, _⟩ | ⟨ht, _⟩ | ⟨_, _, _, hp, _⟩ | ⟨prod, _, _, _, hp, hpe, _, hsub⟩ | ⟨_, _, ht, _⟩
      · exact absurd ht (by decide)
      · exact absurd ht (by decide)
      · have hrow := (rowFacts _ (get_production_mem hp)).2 rfl
        simp only at hrow
        exact absurd hrow (by decide)
      · have hrow := (rowFacts _ (get_production_mem hp)).2 rfl
        simp only at hrow
        subst hrow
        have hσ' : stackSyms s' =
            ["Declarations", "begin", "StmtList", "end"] ++ rest.map (fun e => e.1) := by
          rcases hsub with ⟨p, _, hstk, _⟩ | ⟨_, hstk, _⟩
          · unfold stackSyms; rw [hstk]; exact map_fst_enum_push _ p rest
          · unfold stackSyms; rw [hstk]; exact map_fst_none_push _ rest
        refine Or.inr (Or.inr (Or.inl ⟨["Declarations", "begin", "StmtList"], ?_, by decide⟩))
        rw [hσ', h2]
        rfl
      · exact absurd ht (by decide)
    · rw [hsyms] at hσ
      have hσ2 : top :: rest.map (fun e => e.1) = c :: (xs' ++ ["Block", ".", "$"]) := hσ
      obtain ⟨h1, h2⟩ := List.cons.inj hσ2
      have hdc : c ≠ "$" := fun hcc => hdx (hcc ▸ List.mem_cons_self c xs')
      have hdx' : "$" ∉ xs' := fun hm => hdx (List.mem_cons_of_mem _ hm)
      rcases hcase with ⟨_, _, _, _, hstk, _⟩ | ⟨_, _, hstk, _⟩ | ⟨_, _, _, _, _, hstk, _⟩ | ⟨prod, _, _, _, hp, hpe, _, hsub⟩ | ⟨_, _, _, _, hstk, _⟩
      · refine Or.inr (Or.inl ⟨xs', ?_, hdx'⟩)
        unfold stackSyms
        rw [hstk, h2]
      · refine Or.inr (Or.inl ⟨xs', ?_, hdx'⟩)
        unfold stackSyms
        rw [hstk, h2]
      · refine Or.inr (Or.inl ⟨xs', ?_, hdx'⟩)
        unfold stackSyms
        rw [hstk, h2]
      · have hnd := (tableFacts _ (get_production_mem hp)).2.2.1
        have hσ' : stackSyms s' = prod ++ rest.map (fun e => e.1) := by
          rcases hsub with ⟨p, _, hstk, _⟩ | ⟨_, hstk, _⟩
          · unfold stackSyms; rw [hstk]; exact map_fst_enum_push _ p rest
          · unfold stackSyms; rw [hstk]; exact map_fst_none_push _ rest
        refine Or.inr (Or.inl ⟨prod ++ xs', ?_, ?_⟩)
        · rw [hσ', h2, List.append_assoc]
        · intro hm
          rcases List.mem_append.mp hm with hm | hm
          · exact hnd hm
          · exact hdx' hm
      · refine Or.inr (Or.inl ⟨xs', ?_, hdx'⟩)
        unfold stackSyms
        rw [hstk, h2]
  · -- shape 3: xs ++ [end, ., $]
    rcases xs with _ | ⟨c, xs'⟩
    · rw [hsyms] at hσ
      obtain ⟨h1, h2⟩ := List.cons.inj hσ
      subst h1
      rcases hcase with ⟨⟨ht, hte⟩, hm, hacc, hpos, hstk, _⟩ | ⟨ht, _⟩ | ⟨_, _, hnt, _⟩ | ⟨prod, _, _, hnt, _⟩ | ⟨hterm, _, _, _⟩
      · have hcur : get_terminal cur ≠ "$" := fun hcc => by
          rw [← hm] at hcc
          exact absurd hcc (by decide)
        obtain ⟨hadv, hcurT⟩ := match_pos_succ hInv hc hcur
        refine Or.inr (Or.inr (Or.inr (Or.inl ⟨?_, ?_, ?_⟩)))
        · unfold stackSyms; rw [hstk, h2]
        · rw [hpos, hadv]; omega
        · rw [hpos, hadv]
          simpa using hcurT.trans hm.symm
      · exact absurd ht (by decide)
      · exact absurd hnt (by decide)
      · exact absurd hnt (by decide)
      · exact absurd ⟨by decide, by decide⟩ hterm
    · rw [hsyms] at hσ
      have hσ2 : top :: rest.map (fun e => e.1) = c :: (xs' ++ ["end", ".", "$"]) := hσ
      obtain ⟨h1, h2⟩ := List.cons.inj hσ2
      have hdx' : "$" ∉ xs' := fun hm => hdx (List.mem_cons_of_mem _ hm)
      rcases hcase with ⟨_, _, _, _, hstk, _⟩ | ⟨_, _, hstk, _⟩ | ⟨_, _, _, _, _, hstk, _⟩ | ⟨prod, _, _, _, hp, hpe, _, hsub⟩ | ⟨_, _, _, _, hstk, _⟩
      · refine Or.inr (Or.inr (Or.inl ⟨xs', ?_, hdx'⟩))
        unfold stackSyms
        rw [hstk, h2]
      · refine Or.inr (Or.inr (Or.inl ⟨xs', ?_, hdx'⟩))
        unfold stackSyms
        rw [hstk, h2]
      · refine Or.inr (Or.inr (Or.inl ⟨xs', ?_, hdx'⟩))
        unfold stackSyms
        rw [hstk, h2]
      · have hnd := (tableFacts _ (get_production_mem hp)).2.2.1
        have hσ' : stackSyms s' = prod ++ rest.map (fun e => e.1) := by
          rcases hsub with ⟨p, _, hstk, _⟩ | ⟨_, hstk, _⟩
          · unfold stackSyms; rw [hstk]; exact map_fst_enum_push _ p rest
          · unfold stackSyms; rw [hstk]; exact map_fst_none_push _ rest
        refine Or.inr (Or.inr (Or.inl ⟨prod ++ xs', ?_, ?_⟩))
        · rw [hσ', h2, List.append_assoc]
        · intro hm
          rcases List.mem_append.mp hm with hm | hm
          · exact hnd hm
          · exact hdx' hm
      · refine Or.inr (Or.inr (Or.inl ⟨xs', ?_, hdx'⟩))
        unfold stackSyms
        rw [hstk, h2]
  · -- shape 4: [., $]
    rw [hsyms] at hσ
    obtain ⟨h1, h2⟩ := List.cons.inj hσ
    subst h1
    rcases hcase with ⟨⟨ht, hte⟩, hm, hacc, hpos, hstk, _⟩ | ⟨ht, _⟩ | ⟨_, _, hnt, _⟩ | ⟨prod, _, _, hnt, _⟩ | ⟨hterm, _, _, _⟩
    · have hcur : get_terminal cur ≠ "$" := fun hcc => by
        rw [← hm] at hcc
        exact absurd hcc (by decide)
      obtain ⟨hadv, hcurT⟩ := match_pos_succ hInv hc hcur
      refine Or.inr (Or.inr (Or.inr (Or.inr ⟨?_, ?_, ?_, ?_⟩)))
      · unfold stackSyms; rw [hstk, h2]
      · rw [hpos, hadv]; omega
      · rw [hpos, hadv]
        simpa using he1
      · rw [hpos, hadv]
        simpa using hcurT.trans hm.symm
    · exact absurd ht (by decide)
    · exact absurd hnt (by decide)
    · exact absurd hnt (by decide)
    · exact absurd ⟨by decide, by decide⟩ hterm
  · -- shape 5: [$] — every step from here halts
    rw [hsyms] at hσ
    obtain ⟨h1, h2⟩ := List.cons.inj hσ
    subst h1
    rcases hcase with ⟨⟨ht, hte⟩, hm, hacc, _⟩ | ⟨ht, _⟩ | ⟨_, _, hnt, _⟩ | ⟨prod, _, _, hnt, _⟩ | ⟨hterm, _, _, _⟩
    · exact absurd ⟨rfl, hm.symm⟩ hacc
    · exact absurd ht (by decide)
    · exact absurd hnt (by decide)
    · exact absurd hnt (by decide)
    · exact absurd ⟨by decide, by decide⟩ hterm

/-- An accepting halt out of a shape-invariant state pins the consumed
input: the two last consumed terminals are `end` and `.`, with `$` as the
lookahead. -/
theorem stackOK_accept {s : PState} {T : PTree}
    (h : step s = .halt (.accepted T)) (hInv : TermInv s) (hOK : StackOK s) :
    2 ≤ s.pos ∧ termAt s.tokens (s.pos - 2) = "end" ∧
      termAt s.tokens (s.pos - 1) = "." ∧ termAt s.tokens s.pos = "$" := by
  obtain ⟨_, topN, rest, cur, hs, hc, hcur⟩ := step_accept_cases h
  have hsyms : stackSyms s = "$" :: rest.map (fun e => e.1) := by
    unfold stackSyms; rw [hs]; rfl
  have hterm : termAt s.tokens s.pos = "$" := by
    rw [lookahead_eq_termAt hInv.2.2.1 hc]
    exact hcur
  rcases hOK with hσ | ⟨xs, hσ, hdx⟩ | ⟨xs, hσ, hdx⟩ | ⟨hσ, _, _⟩ | ⟨hσ, hp2, he2, hd2⟩
  · rw [hsyms] at hσ
    exact absurd (List.cons.inj hσ).1.symm (by decide)
  · rcases xs with _ | ⟨c, xs'⟩
    · rw [hsyms] at hσ
      exact absurd (List.cons.inj hσ).1.symm (by decide)
    · rw [hsyms] at hσ
      have : "$" = c := (List.cons.inj hσ).1
      exact absurd (this ▸ List.mem_cons_self c xs') (this ▸ hdx)
  · rcases xs with _ | ⟨c, xs'⟩
    · rw [hsyms] at hσ
      exact absurd (List.cons.inj hσ).1.symm (by decide)
    · rw [hsyms] at hσ
      have : "$" = c := (List.cons.inj hσ).1
      exact absurd (this ▸ List.mem_cons_self c xs') (this ▸ hdx)
  · rw [hsyms] at hσ
    exact absurd (List.cons.inj hσ).1.symm (by decide)
  · exact ⟨hp2, he2, hd2, hterm⟩

/-! ## Initial-state facts and end-of-input bookkeeping -/

theorem initParser_termInv {ts : List Token} (hne : ts ≠ [])
    (hlast : termAt ts (ts.length - 1) = "$") : TermInv (initParser ts) := by
  refine ⟨hne, hlast, List.length_pos.mpr hne, ?_⟩
  show "$" ∈ (["Program", "$"] : List String)
  decide

theorem initParser_stackOK (ts : List Token) : StackOK (initParser ts) :=
  Or.inl rfl

theorem eofOnly_last {ts : List Token} (h : eofOnlyAtEnd ts) :
    termAt ts (ts.length - 1) = "$" := by
  obtain ⟨hne, hiff⟩ := h
  have hlen : 0 < ts.length := List.length_pos.mpr hne
  exact (hiff (ts.length - 1) (by omega)).mpr rfl

theorem endsWithEOF_facts {ts : List Token} (h : endsWithEOF ts = true) :
    ts ≠ [] ∧ termAt ts (ts.length - 1) = "$" := by
  unfold endsWithEOF at h
  rcases hl : ts.getLast? with _ | tk
  · rw [hl] at h; cases h
  · rw [hl] at h
    simp only [Option.any_some, beq_iff_eq] at h
    have hne : ts ≠ [] := by
      rintro rfl
      cases hl
    refine ⟨hne, ?_⟩
    unfold termAt
    rw [← List.getLast?_eq_get?, hl]
    simp only [Option.map_some', Option.getD_some]
    exact get_terminal_dollar.mpr h

/-- From an invariant-satisfying state, an accepted run pins the shape of
the input around the final cursor: `end`, `.`, then the `$` lookahead. -/
theorem run_accept_shape : ∀ (n : Nat) (s : PState) (T : PTree), TermInv s → StackOK s →
    runParser n s = some (.accepted T) →
    ∃ p, s.pos ≤ p ∧ p < s.tokens.length ∧ 2 ≤ p ∧
      termAt s.tokens (p - 2) = "end" ∧ termAt s.tokens (p - 1) = "." ∧
      termAt s.tokens p = "$" := by
  intro n
  induction n with
  | zero => intro s T _ _ hrun; cases hrun
  | succ n ih =>
    intro s T hInv hOK hrun
    rw [runParser_succ] at hrun
    rcases hstep : step s with r | s'
    · rw [hstep] at hrun
      have hr : r = .accepted T := Option.some_inj.mp hrun
      subst hr
      obtain ⟨h2, he, hd, hdol⟩ := stackOK_accept hstep hInv hOK
      exact ⟨s.pos, Nat.le_refl _, hInv.2.2.1, h2, he, hd, hdol⟩
    · rw [hstep] at hrun
      obtain ⟨htoks, hInv', hdec⟩ := step_next_measure hstep hInv
      have hOK' := stackOK_next hstep hInv hOK
      obtain ⟨p, hle, hlt, h2, he, hd, hdol⟩ := ih s' T hInv' hOK' hrun
      rw [htoks] at hlt he hd hdol
      have hple : s.pos ≤ p := by
        rcases hdec with ⟨hp, _⟩ | ⟨hp, _⟩ <;> omega
      exact ⟨p, hple, hlt, h2, he, hd, hdol⟩

/-! ## Claim C4 — the parse loop always terminates in ACCEPT or an error -/

/-- C4: for every finite token sequence ending in an EOF token, the parse
loop reaches a final result — ACCEPT or a raised `ParserError` — and in
particular never exits with an empty stack (`unexpectedEndOfParsing`
is unreachable, as is the empty-token-list crash), and never runs
forever (some finite iteration budget suffices). -/
theorem claim_C4 (ts : List Token) (he : endsWithEOF ts = true) :
    ∃ n r, runParser n (initParser ts) = some r ∧
      ((∃ T, r = .accepted T) ∨
       (∃ e, r = .failed e ∧ e ≠ .unexpectedEndOfParsing)) := by
  obtain ⟨hne, hlast⟩ := endsWithEOF_facts he
  obtain ⟨n, r, hrun, hnee, hnc⟩ :=
    runReaches _ _ (initParser ts) (initParser_termInv hne hlast) rfl rfl
  refine ⟨n, r, hrun, ?_⟩
  rcases r with T | e | _
  · exact Or.inl ⟨T, rfl⟩
  · exact Or.inr ⟨e, rfl, fun hh => hnee (by rw [hh])⟩
  · exact absurd rfl hnc

/-- Witness for C4 at the tokens of `program t; begin end.`. -/
theorem claim_C4_witness :
    endsWithEOF (toksOf "program t; begin end.") = true ∧
    ∃ n r, runParser n (initParser (toksOf "program t; begin end.")) = some r ∧
      ((∃ T, r = .accepted T) ∨
       (∃ e, r = .failed e ∧ e ≠ .unexpectedEndOfParsing)) :=
  ⟨rfl, claim_C4 (toksOf "program t; begin end.") rfl⟩

/-! ## Claim C3 — inputs missing the trailing `end.` are never accepted -/

/-- C3, as amended: a token sequence (EOF-terminated, EOF only at the end)
that does not end with `end`, `.`, EOF is never accepted: the run always
raises some `ParserError`.  (The error is not always a terminal mismatch,
and not always at the end-of-input lookahead — see the counterexample.) -/
theorem claim_C3 (ts : List Token) (he : eofOnlyAtEnd ts)
    (hmiss : ¬(3 ≤ ts.length ∧ termAt ts (ts.length - 3) = "end" ∧
               termAt ts (ts.length - 2) = ".")) :
    (∀ n T, runParser n (initParser ts) ≠ some (.accepted T)) ∧
    (∃ n e, runParser n (initParser ts) = some (.failed e)) := by
  obtain ⟨hne, hiff⟩ := he
  have hlast := eofOnly_last ⟨hne, hiff⟩
  have hInv := initParser_termInv hne hlast
  have hNoAcc : ∀ n T, runParser n (initParser ts) ≠ some (.accepted T) := by
    intro n T hrun
    obtain ⟨p, hle, hlt, h2, hend, hdot, hdol⟩ :=
      run_accept_shape n _ T hInv (initParser_stackOK ts) hrun
    have hp : p = ts.length - 1 := (hiff p hlt).mp hdol
    apply hmiss
    refine ⟨by omega, ?_, ?_⟩
    · rw [show ts.length - 3 = p - 2 by omega]
      exact hend
    · rw [show ts.length - 2 = p - 1 by omega]
      exact hdot
  refine ⟨hNoAcc, ?_⟩
  obtain ⟨n, r, hrun, hnee, hnc⟩ := runReaches _ _ _ hInv rfl rfl
  rcases r with T | e | _
  · exact absurd hrun (hNoAcc n T)
  · exact ⟨n, e, hrun⟩
  · exact absurd rfl hnc

/-- Counterexample to C3 as stated: the source `program t; begin x := ; end`
is missing the trailing dot, yet its parse fails with a *no-production*
error for `(Expression, ;)` — raised at the lookahead `;`, which is neither
a terminal mismatch nor any end-of-input condition. -/
theorem claim_C3_counterexample :
    eofOnlyAtEnd missingDotToks ∧
    ¬(3 ≤ missingDotToks.length ∧
      termAt missingDotToks (missingDotToks.length - 3) = "end" ∧
      termAt missingDotToks (missingDotToks.length - 2) = ".") ∧
    outcomeErr (runParser 99 (initParser missingDotToks)) =
      some (.noProduction "Expression" ";" ⟨.SEMICOLON, ";", 1, 23⟩) ∧
    (∀ expected tok, ParserError.noProduction "Expression" ";" ⟨.SEMICOLON, ";", 1, 23⟩ ≠
      .mismatch expected tok) ∧
    (";" : String) ≠ "$" := by
  refine ⟨of_decide_eq_true rfl, of_decide_eq_true rfl, rfl, ?_, by decide⟩
  intro expected tok h
  cases h

/-- Witness for C3 at the same dot-less input. -/
theorem claim_C3_witness :
    eofOnlyAtEnd missingDotToks ∧
    ((∀ n T, runParser n (initParser missingDotToks) ≠ some (.accepted T)) ∧
     (∃ n e, runParser n (initParser missingDotToks) = some (.failed e))) :=
  ⟨of_decide_eq_true rfl, claim_C3 missingDotToks (of_decide_eq_true rfl)
    (of_decide_eq_true rfl)⟩

/-! ## Claim C5 — epsilon steps never consume input -/

theorem nonterminal_not_terminal : ∀ A ∈ NONTERMINALS,
    is_terminal A = false ∧ A ≠ EPSILON ∧ A ≠ "$" := by
  decide

theorem is_nonterminal_mem {A : String} (h : is_nonterminal A = true) :
    A ∈ NONTERMINALS := by
  unfold is_nonterminal at h
  simpa using h

/-- C5: popping the epsilon marker, or expanding a nonterminal with the
single-epsilon production, leaves the input cursor (and hence the lookahead
token) unchanged, and processing continues with the next stack symbol
against that same token. -/
theorem claim_C5 :
    (∀ (s : PState) (pth : Option TreePath) (rest : List (String × Option TreePath))
        (cur : Token),
        s.stack = (EPSILON, pth) :: rest → current_token s = some cur →
        ∃ s', step s = .next s' ∧ s'.pos = s.pos ∧ s'.tokens = s.tokens ∧
          s'.stack = rest ∧ current_token s' = current_token s) ∧
    (∀ (s : PState) (A : String) (pth : Option TreePath)
        (rest : List (String × Option TreePath)) (cur : Token),
        s.stack = (A, pth) :: rest → current_token s = some cur →
        is_nonterminal A = true →
        get_production A (get_terminal cur) = some [EPSILON] →
        ∃ s', step s = .next s' ∧ s'.pos = s.pos ∧ s'.tokens = s.tokens ∧
          s'.stack = rest ∧ current_token s' = current_token s) := by
  constructor
  · intro s pth rest cur hs hc
    obtain ⟨tokens, pos, stk, tree⟩ := s
    dsimp only at hs hc
    subst hs
    refine ⟨⟨tokens, pos, rest, match pth with
            | some p => addChildAt tree p (.node EPSILON "" [])
            | none => tree⟩, ?_, rfl, rfl, rfl, rfl⟩
    unfold step
    dsimp only
    rw [hc]
    simp [EPSILON, is_terminal, TERMINALS]
    cases pth <;> rfl
  · intro s A pth rest cur hs hc hA hp
    obtain ⟨hAt, hAe, hAd⟩ := nonterminal_not_terminal A (is_nonterminal_mem hA)
    obtain ⟨tokens, pos, stk, tree⟩ := s
    dsimp only at hs hc hp
    subst hs
    refine ⟨⟨tokens, pos, rest, match pth with
            | some p => addChildAt tree p (.node EPSILON "" [])
            | none => tree⟩, ?_, rfl, rfl, rfl, rfl⟩
    unfold step
    dsimp only
    rw [hc]
    have h1 : ¬(A = "$" ∧ get_terminal cur = "$") := fun hh => hAd hh.1
    have h2 : ¬(is_terminal A = true ∧ A ≠ EPSILON) := fun hh => by
      rw [hAt] at hh
      exact absurd hh.1 (by simp)
    simp only [h1, h2, hA, hAe, hp, if_neg, if_pos, if_true, if_false]
    simp [h1, h2, hA, hAe, hp]
    cases pth <;> rfl

/-- Witness for C5: the epsilon marker popped against an EOF lookahead, and
`Statement` expanded by its epsilon production under lookahead `end`. -/
theorem claim_C5_witness :
    (∃ s', step ⟨[⟨.EOF, "$", 1, 1⟩], 0, [(EPSILON, none)], .node "Program" "" []⟩ = .next s' ∧
      s'.pos = 0 ∧ s'.stack = []) ∧
    (∃ s', step ⟨[⟨.END, "end", 1, 1⟩], 0, [("Statement", some [])],
        .node "Statement" "" []⟩ = .next s' ∧ s'.pos = 0 ∧ s'.stack = []) := by
  constructor
  · obtain ⟨s', h1, h2, _, h4, _⟩ :=
      claim_C5.1 ⟨[⟨.EOF, "$", 1, 1⟩], 0, [(EPSILON, none)], .node "Program" "" []⟩
        none [] ⟨.EOF, "$", 1, 1⟩ rfl rfl
    exact ⟨s', h1, h2, h4⟩
  · obtain ⟨s', h1, h2, _, h4, _⟩ :=
      claim_C5.2 ⟨[⟨.END, "end", 1, 1⟩], 0, [("Statement", some [])],
        .node "Statement" "" []⟩ "Statement" (some []) [] ⟨.END, "end", 1, 1⟩
        rfl rfl (by decide) (by decide)
    exact ⟨s', h1, h2, h4⟩

/-! ## Claim C6 — numeric literals and the trailing-dot boundary -/

/-- C6: `3.14` lexes as one `NUM` token with lexeme `3.14`, while in `3.`
the dot is not consumed into the number: a `NUM` with lexeme `3` is
followed by a separate `DOT` token. -/
theorem claim_C6 :
    tokenize "3.14" = some (.ok
      [⟨.NUM, "3.14", 1, 1⟩, ⟨.EOF, "$", 1, 5⟩]) ∧
    tokenize "3." = some (.ok
      [⟨.NUM, "3", 1, 1⟩, ⟨.DOT, ".", 1, 2⟩, ⟨.EOF, "$", 1, 3⟩]) :=
  ⟨rfl, rfl⟩

/-! ## Claim C9 — the spec's no-production scenario -/

/-- C9: parsing `program t; begin x := end.` fails with the no-production
error for nonterminal `Expression` under lookahead `end`; indeed the parse
table has no entry at `(Expression, end)`. -/
theorem claim_C9 :
    get_production "Expression" "end" = none ∧
    outcomeErr (runParser 99 (initParser noProdToks)) =
      some (.noProduction "Expression" "end" ⟨.END, "end", 1, 23⟩) ∧
    outcomeAccepted (runParser 99 (initParser noProdToks)) = false :=
  ⟨rfl, rfl, rfl⟩

/-! ## Claim C10 — `parse_string` returns `(False, None)` on every failure -/

/-- C10: whenever `parse_string` returns, a lexer error or parser error
yields exactly `(False, None)`, and a non-`None` tree comes only with
`accepted = True`. -/
theorem claim_C10 :
    (∀ (fuel : Nat) (source : String) (r : Bool × Option PTree),
        parse_string fuel source = some r →
        (r.2 ≠ none → r.1 = true) ∧ (r.1 = false → r = (false, none))) ∧
    (∀ (fuel : Nat) (source : String) (e : LexerError),
        tokenize source = some (.error e) →
        parse_string fuel source = some (false, none)) ∧
    (∀ (fuel : Nat) (source : String) (ts : List Token) (e : ParserError),
        tokenize source = some (.ok ts) →
        runParser fuel (initParser ts) = some (.failed e) →
        parse_string fuel source = some (false, none)) := by
  refine ⟨?_, ?_, ?_⟩
  · intro fuel source r hr
    unfold parse_string at hr
    split at hr
    · cases hr
    · cases hr
      exact ⟨fun hh => absurd rfl hh, fun _ => rfl⟩
    · split at hr
      · cases hr
      · cases hr
        exact ⟨fun _ => rfl, fun hh => by cases hh⟩
      · cases hr
        exact ⟨fun hh => absurd rfl hh, fun _ => rfl⟩
      · cases hr
  · intro fuel source e htk
    simp only [parse_string, htk]
  · intro fuel source ts e htk hrp
    simp only [parse_string, htk, hrp]

/-- Witness for C10 at the lexically invalid source `#`. -/
theorem claim_C10_witness :
    tokenize "#" = some (.error ⟨"Unexpected character: '#'", 1, 1⟩) ∧
    parse_string 9 "#" = some (false, none) :=
  ⟨rfl, claim_C10.2.1 9 "#" ⟨"Unexpected character: '#'", 1, 1⟩ rfl⟩

/-! ## Claim C2 — the LL(1) construction versus the stored table -/

/-- Iterating from a fixed point stays there. -/
theorem iterRounds_fix
    (f : List (String × List String) → List (String × List String))
    (x : List (String × List String)) (hx : f x = x) :
    ∀ n, iterRounds f n x = x
  | 0 => rfl
  | n+1 => by
    show iterRounds f n (f x) = x
    rw [hx]
    exact iterRounds_fix f x hx n

/-- The FIRST iteration, evaluated round by round: it reaches its fixed
point `firstR4` after four rounds. -/
theorem firstSets_eval : firstSets = firstR4 := by
  have h1 : firstRound (NONTERMINALS.map (fun A => (A, []))) = firstR1 := rfl
  have h2 : firstRound firstR1 = firstR2 := rfl
  have h3 : firstRound firstR2 = firstR3 := rfl
  have h4 : firstRound firstR3 = firstR4 := rfl
  have h5 : firstRound firstR4 = firstR4 := rfl
  show iterRounds firstRound 9 (firstRound (NONTERMINALS.map (fun A => (A, [])))) =
    firstR4
  rw [h1]
  show iterRounds firstRound 8 (firstRound firstR1) = firstR4
  rw [h2]
  show iterRounds firstRound 7 (firstRound firstR2) = firstR4
  rw [h3]
  show iterRounds firstRound 6 (firstRound firstR3) = firstR4
  rw [h4]
  exact iterRounds_fix firstRound firstR4 h5 6

/-- The FOLLOW iteration, evaluated round by round against the evaluated
FIRST sets: it reaches its fixed point `followR2` after two rounds. -/
theorem followSets_eval : followSets = followR2 := by
  show iterRounds (followRound firstSets) 12
    (NONTERMINALS.map (fun A => (A, if A = "Program" then ["$"] else []))) = followR2
  rw [firstSets_eval]
  have h1 : followRound firstR4
      (NONTERMINALS.map (fun A => (A, if A = "Program" then ["$"] else []))) =
      followR1 := rfl
  have h2 : followRound firstR4 followR1 = followR2 := rfl
  have h3 : followRound firstR4 followR2 = followR2 := rfl
  show iterRounds (followRound firstR4) 11 (followRound firstR4
    (NONTERMINALS.map (fun A => (A, if A = "Program" then ["$"] else [])))) = followR2
  rw [h1]
  show iterRounds (followRound firstR4) 10 (followRound firstR4 followR1) = followR2
  rw [h2]
  exact iterRounds_fix (followRound firstR4) followR2 h3 10

/-- The whole construction, evaluated against the evaluated FIRST and
FOLLOW sets. -/
theorem buildParseTable_eval :
    buildParseTable = ⟨builtTableVal, builtConflictsVal⟩ := by
  show buildParseTableWith firstSets followSets = _
  rw [firstSets_eval, followSets_eval]
  rfl

/-- Counterexample to C2 as stated: the construction over `PRODUCTIONS`
does set an entry twice with different productions — the dangling-else
collision at `(ElsePart, else)` between the FIRST-derived
`else Statement` and the FOLLOW-derived `ε` — and its conflict-free part
does not equal `PARSE_TABLE` entry for entry: it also contains a row for
the never-referenced nonterminal `AssignStmt` and the entry
`(StmtList, ;)` (legitimate, since `;` is in FIRST(StmtList) through the
nullable `Statement`), both absent from the stored table. -/
theorem claim_C2_counterexample :
    buildParseTable.conflicts =
      [⟨"ElsePart", "else", ["else", "Statement"], [EPSILON]⟩] ∧
    builtLookup buildParseTable.table "StmtList" ";" = some ["Statement", "StmtListP"] ∧
    get_production "StmtList" ";" = none ∧
    builtLookup buildParseTable.table "AssignStmt" "id" = some ["id", ":=", "Expression"] ∧
    PARSE_TABLE.lookup "AssignStmt" = none := by
  rw [buildParseTable_eval]
  exact ⟨rfl, rfl, rfl, rfl, rfl⟩

/-- C2, as amended: running the spec's LL(1) construction over
`PRODUCTIONS` produces exactly one conflicting write, the dangling-else
entry `(ElsePart, else)` (kept entry `else Statement`, attempted `ε`) —
which the stored table resolves the same way, in favor of
`else Statement` — and, apart from the extra `AssignStmt` row and the
extra `(StmtList, ;)` entry, the constructed table equals `PARSE_TABLE`
on every (nonterminal, terminal) pair. -/
theorem claim_C2 :
    buildParseTable.conflicts =
      [⟨"ElsePart", "else", ["else", "Statement"], [EPSILON]⟩] ∧
    (∀ A ∈ NONTERMINALS, ∀ t ∈ TERMINALS,
      A ≠ "AssignStmt" → ¬(A = "StmtList" ∧ t = ";") →
      builtLookup buildParseTable.table A t = get_production A t) ∧
    builtLookup buildParseTable.table "ElsePart" "else" = some ["else", "Statement"] ∧
    get_production "ElsePart" "else" = some ["else", "Statement"] ∧
    builtLookup buildParseTable.table "StmtList" ";" = some ["Statement", "StmtListP"] ∧
    builtLookup buildParseTable.table "AssignStmt" "id" = some ["id", ":=", "Expression"] ∧
    (∀ t ∈ TERMINALS, t ≠ "id" → builtLookup buildParseTable.table "AssignStmt" t = none) ∧
    get_production "StmtList" ";" = none ∧
    PARSE_TABLE.lookup "AssignStmt" = none := by
  simp only [buildParseTable_eval]
  refine ⟨rfl, ?_, rfl, rfl, rfl, rfl, ?_, rfl, rfl⟩
  · decide
  · decide

/-- Witness for C2's amended agreement at one concrete pair. -/
theorem claim_C2_witness :
    builtLookup buildParseTable.table "Expression" "(" = get_production "Expression" "(" :=
  claim_C2.2.1 "Expression" (by decide) "(" (by decide) (by decide) (by decide)

/-! ## Claim C1 — the accepted tree's terminal leaves spell the input

The development below proves the parser-state invariant `ParserInv`: the
stack is exactly the pending frontier of the tree under construction, and
the tree's completed part accounts for precisely the consumed tokens. -/

/-! ### Path and foldl bookkeeping for the tree mutations -/

theorem take_succ_of_get {α : Type} : ∀ {l : List α} {n : Nat} {x : α},
    l.get? n = some x → l.take (n+1) = l.take n ++ [x] := by
  intro l
  induction l with
  | nil => intro n x h; cases h
  | cons a l ih =>
    intro n x h
    cases n with
    | zero =>
      injection h with h
      subst h
      rfl
    | succ n =>
      show a :: l.take (n+1) = (a :: l.take n) ++ [x]
      rw [ih h]
      rfl

theorem dropLast_take {α : Type} : ∀ (l : List α), l.dropLast = l.take (l.length - 1)
  | [] => rfl
  | [_] => rfl
  | a :: b :: l => by
    show a :: (b :: l).dropLast = a :: (b :: l).take ((b :: l).length - 1)
    rw [dropLast_take (b :: l)]

theorem setValueAtL_ne_nil : ∀ (cs : List PTree), cs ≠ [] →
    ∀ (j : Nat) (p : TreePath) (v : String), setValueAtL cs j p v ≠ [] := by
  intro cs hcs j p v
  rcases cs with _ | ⟨c, cs⟩
  · exact absurd rfl hcs
  · cases j with
    | zero => show setValueAt c p v :: cs ≠ []; simp
    | succ j => show c :: setValueAtL cs j p v ≠ []; simp

theorem addChildAtL_ne_nil : ∀ (cs : List PTree), cs ≠ [] →
    ∀ (j : Nat) (p : TreePath) (d : PTree), addChildAtL cs j p d ≠ [] := by
  intro cs hcs j p d
  rcases cs with _ | ⟨c, cs⟩
  · exact absurd rfl hcs
  · cases j with
    | zero => show addChildAt c p d :: cs ≠ []; simp
    | succ j => show c :: addChildAtL cs j p d ≠ []; simp

theorem addChildAtL_length : ∀ (cs : List PTree) (j : Nat) (p : TreePath) (d : PTree),
    (addChildAtL cs j p d).length = cs.length
  | [], _, _, _ => rfl
  | _ :: _, 0, _, _ => rfl
  | c :: cs, j+1, p, d => by
    show (c :: addChildAtL cs j p d).length = (c :: cs).length
    simp [addChildAtL_length cs j p d]

theorem addChildrenAtL_length : ∀ (ds : List PTree) (cs : List PTree) (j : Nat) (p : TreePath),
    (addChildrenAtL cs j p ds).length = cs.length
  | [], _, _, _ => rfl
  | d :: ds, cs, j, p => by
    have h1 : addChildrenAtL cs j p (d :: ds)
        = addChildrenAtL (addChildAtL cs j p d) j p ds := rfl
    rw [h1, addChildrenAtL_length ds _ j p, addChildAtL_length]

theorem addChildrenAt_nil : ∀ (ds : List PTree) (s v : String) (cs : List PTree),
    addChildrenAt (.node s v cs) [] ds = .node s v (cs ++ ds)
  | [], s, v, cs => by simp [addChildrenAt]
  | d :: ds, s, v, cs => by
    have h1 : addChildrenAt (.node s v cs) [] (d :: ds)
        = addChildrenAt (.node s v (cs ++ [d])) [] ds := rfl
    rw [h1, addChildrenAt_nil ds s v (cs ++ [d])]
    simp

theorem addChildrenAt_cons : ∀ (ds : List PTree) (s v : String) (cs : List PTree)
    (j : Nat) (p : TreePath),
    addChildrenAt (.node s v cs) (j :: p) ds = .node s v (addChildrenAtL cs j p ds)
  | [], _, _, _, _, _ => rfl
  | d :: ds, s, v, cs, j, p => by
    have h1 : addChildrenAt (.node s v cs) (j :: p) (d :: ds)
        = addChildrenAt (.node s v (addChildAtL cs j p d)) (j :: p) ds := rfl
    have h2 : addChildrenAtL cs j p (d :: ds)
        = addChildrenAtL (addChildAtL cs j p d) j p ds := rfl
    rw [h1, h2, addChildrenAt_cons ds s v (addChildAtL cs j p d) j p]

theorem addChildrenAtL_succ : ∀ (ds : List PTree) (c : PTree) (cs : List PTree)
    (j : Nat) (p : TreePath),
    addChildrenAtL (c :: cs) (j+1) p ds = c :: addChildrenAtL cs j p ds
  | [], _, _, _, _ => rfl
  | d :: ds, c, cs, j, p => by
    have h1 : addChildrenAtL (c :: cs) (j+1) p (d :: ds)
        = addChildrenAtL (addChildAtL (c :: cs) (j+1) p d) (j+1) p ds := rfl
    rw [h1]
    have h2 : addChildAtL (c :: cs) (j+1) p d = c :: addChildAtL cs j p d := rfl
    rw [h2, addChildrenAtL_succ ds c (addChildAtL cs j p d) j p]
    rfl

theorem addChildrenAtL_zero : ∀ (ds : List PTree) (c : PTree) (cs : List PTree)
    (p : TreePath),
    addChildrenAtL (c :: cs) 0 p ds = addChildrenAt c p ds :: cs
  | [], _, _, _ => rfl
  | d :: ds, c, cs, p => by
    have h1 : addChildrenAtL (c :: cs) 0 p (d :: ds)
        = addChildrenAtL (addChildAt c p d :: cs) 0 p ds := rfl
    rw [h1, addChildrenAtL_zero ds (addChildAt c p d) cs p]
    rfl

theorem enum_map_reindex (prod : List String) (i : Nat) (qp : TreePath) :
    (prod.enum.map (fun e => (e.2, qp ++ [e.1]))).map
        (fun e => (e.1, i :: e.2))
      = prod.enum.map (fun e => (e.2, (i :: qp) ++ [e.1])) := by
  rw [List.map_map]
  rfl

theorem mem_fst_enum_push {prod : List String} {p : TreePath} {e : String × TreePath}
    (he : e ∈ prod.enum.map (fun x => (x.2, p ++ [x.1]))) : e.1 ∈ prod := by
  have h1 := List.mem_map_of_mem (fun x : String × TreePath => x.1) he
  rw [List.map_map] at h1
  have h2 : ((fun x : String × TreePath => x.1) ∘
      fun x : Nat × String => (x.2, p ++ [x.1])) = Prod.snd := rfl
  rw [h2, List.enum_map_snd] at h1
  exact h1

/-! ### The frontier invariant under the three tree mutations -/

/-- A row of fresh placeholders is an untouched-children frontier. -/
theorem phs_of_prod : ∀ (prod : List String) (i : Nat), (∀ σ ∈ prod, σ ≠ EPSILON) →
    Phs i (prod.map (fun σ => PTree.node σ "" []))
      ((List.enumFrom i prod).map (fun e => (e.2, [e.1])))
  | [], _, _ => Phs.nil _
  | σ :: prod, i, h =>
    Phs.cons i σ _ _ (h σ (List.mem_cons_self _ _))
      (phs_of_prod prod (i+1) (fun x hx => h x (List.mem_cons_of_mem _ hx)))

/-- Untouched placeholders form a valid children segment consuming no
tokens. -/
theorem phs_kids : ∀ (i : Nat) (cs : List PTree) (pend : List (String × TreePath)),
    Phs i cs pend → Kids i cs [] pend
  | _, _, _, .nil i => Kids.nil i
  | _, _, _, .cons i s cs pend hs hp =>
    Kids.act i (.node s "" []) cs [] (s, []) [] pend (Shape.ph s hs) hp

mutual
/-- Matching a terminal: writing the token's lexeme into the leftmost
pending placeholder turns it into a completed terminal leaf, extending the
consumed tokens by that token. -/
theorem shape_set : ∀ (t : PTree) (ts : List Token) (pend : List (String × TreePath)),
    Shape t ts pend → ∀ (a : String) (p : TreePath)
    (pend₂ : List (String × TreePath)) (tk : Token),
    pend = (a, p) :: pend₂ → get_terminal tk = a →
    Shape (setValueAt t p tk.value) (ts ++ [tk]) pend₂
  | _, _, _, .ph s hs => by
    intro a p pend₂ tk hEq htk
    injection hEq with h1 h2
    injection h1 with h1a h1b
    subst h1a h1b h2
    exact Shape.tleaf s tk hs htk
  | _, _, _, .tleaf s tk hs ht => by
    intro a p pend₂ tk' hEq htk
    exact List.noConfusion hEq
  | _, _, _, .eleaf => by
    intro a p pend₂ tk hEq htk
    exact List.noConfusion hEq
  | _, _, _, .inner A cs ts pend hA hcs hk => by
    intro a p pend₂ tk hEq htk
    obtain ⟨j, p2, hp1, _, hk2⟩ := kids_set 0 cs ts pend hk a p pend₂ tk hEq htk
    subst hp1
    exact Shape.inner A (setValueAtL cs j p2 tk.value) (ts ++ [tk]) pend₂ hA
      (setValueAtL_ne_nil cs hcs j p2 tk.value) hk2

theorem kids_set : ∀ (i : Nat) (cs : List PTree) (ts : List Token)
    (pend : List (String × TreePath)), Kids i cs ts pend →
    ∀ (a : String) (p : TreePath) (pend₂ : List (String × TreePath)) (tk : Token),
    pend = (a, p) :: pend₂ → get_terminal tk = a →
    ∃ j p2, p = j :: p2 ∧ i ≤ j ∧
      Kids i (setValueAtL cs (j - i) p2 tk.value) (ts ++ [tk]) pend₂
  | _, _, _, _, .nil i => by
    intro a p pend₂ tk hEq htk
    exact List.noConfusion hEq
  | _, _, _, _, .done i c cs ts ts' pend hc hk => by
    intro a p pend₂ tk hEq htk
    obtain ⟨j, p2, hp1, hij, hk2⟩ := kids_set (i+1) cs ts' pend hk a p pend₂ tk hEq htk
    refine ⟨j, p2, hp1, by omega, ?_⟩
    have hj : j - i = (j - (i+1)) + 1 := by omega
    rw [hj, List.append_assoc]
    exact Kids.done i c (setValueAtL cs (j - (i+1)) p2 tk.value) ts (ts' ++ [tk])
      pend₂ hc hk2
  | _, _, _, _, .act i c cs ts ⟨qa, qp⟩ qs pend2 hc hp => by
    intro a p pend₂ tk hEq htk
    simp only [List.map_cons, List.cons_append] at hEq
    injection hEq with h1 h2
    injection h1 with h1a h1b
    subst h1a h1b h2
    refine ⟨i, qp, rfl, Nat.le_refl i, ?_⟩
    rw [Nat.sub_self]
    have hc2 : Shape (setValueAt c qp tk.value) (ts ++ [tk]) qs :=
      shape_set c ts ((qa, qp) :: qs) hc qa qp qs tk rfl htk
    rcases qs with _ | ⟨q3, qs3⟩
    · have hk2 := phs_kids (i+1) cs pend2 hp
      have hres := Kids.done i (setValueAt c qp tk.value) cs (ts ++ [tk]) [] pend2 hc2 hk2
      rw [List.append_nil] at hres
      exact hres
    · exact Kids.act i (setValueAt c qp tk.value) cs (ts ++ [tk]) q3 qs3 pend2 hc2 hp
end

mutual
/-- Expanding by the epsilon production: attaching an `ε` child to the
leftmost pending placeholder completes it without consuming input. -/
theorem shape_eps : ∀ (t : PTree) (ts : List Token) (pend : List (String × TreePath)),
    Shape t ts pend → ∀ (a : String) (p : TreePath)
    (pend₂ : List (String × TreePath)),
    pend = (a, p) :: pend₂ →
    Shape (addChildAt t p (.node EPSILON "" [])) ts pend₂
  | _, _, _, .ph s hs => by
    intro a p pend₂ hEq
    injection hEq with h1 h2
    injection h1 with h1a h1b
    subst h1a h1b h2
    exact Shape.inner s [.node EPSILON "" []] [] [] hs (by simp)
      (Kids.done 0 (.node EPSILON "" []) [] [] [] [] Shape.eleaf (Kids.nil 1))
  | _, _, _, .tleaf s tk hs ht => by
    intro a p pend₂ hEq
    exact List.noConfusion hEq
  | _, _, _, .eleaf => by
    intro a p pend₂ hEq
    exact List.noConfusion hEq
  | _, _, _, .inner A cs ts pend hA hcs hk => by
    intro a p pend₂ hEq
    obtain ⟨j, p2, hp1, _, hk2⟩ := kids_eps 0 cs ts pend hk a p pend₂ hEq
    subst hp1
    exact Shape.inner A (addChildAtL cs j p2 (.node EPSILON "" [])) ts pend₂ hA
      (addChildAtL_ne_nil cs hcs j p2 (.node EPSILON "" [])) hk2

theorem kids_eps : ∀ (i : Nat) (cs : List PTree) (ts : List Token)
    (pend : List (String × TreePath)), Kids i cs ts pend →
    ∀ (a : String) (p : TreePath) (pend₂ : List (String × TreePath)),
    pend = (a, p) :: pend₂ →
    ∃ j p2, p = j :: p2 ∧ i ≤ j ∧
      Kids i (addChildAtL cs (j - i) p2 (.node EPSILON "" [])) ts pend₂
  | _, _, _, _, .nil i => by
    intro a p pend₂ hEq
    exact List.noConfusion hEq
  | _, _, _, _, .done i c cs ts ts' pend hc hk => by
    intro a p pend₂ hEq
    obtain ⟨j, p2, hp1, hij, hk2⟩ := kids_eps (i+1) cs ts' pend hk a p pend₂ hEq
    refine ⟨j, p2, hp1, by omega, ?_⟩
    have hj : j - i = (j - (i+1)) + 1 := by omega
    rw [hj]
    exact Kids.done i c (addChildAtL cs (j - (i+1)) p2 (.node EPSILON "" [])) ts ts'
      pend₂ hc hk2
  | _, _, _, _, .act i c cs ts ⟨qa, qp⟩ qs pend2 hc hp => by
    intro a p pend₂ hEq
    simp only [List.map_cons, List.cons_append] at hEq
    injection hEq with h1 h2
    injection h1 with h1a h1b
    subst h1a h1b h2
    refine ⟨i, qp, rfl, Nat.le_refl i, ?_⟩
    rw [Nat.sub_self]
    have hc2 : Shape (addChildAt c qp (.node EPSILON "" [])) ts qs :=
      shape_eps c ts ((qa, qp) :: qs) hc qa qp qs rfl
    rcases qs with _ | ⟨q3, qs3⟩
    · have hk2 := phs_kids (i+1) cs pend2 hp
      have hres := Kids.done i (addChildAt c qp (.node EPSILON "" [])) cs ts [] pend2
        hc2 hk2
      rw [List.append_nil] at hres
      exact hres
    · exact Kids.act i (addChildAt c qp (.node EPSILON "" [])) cs ts q3 qs3 pend2 hc2 hp
end

mutual
/-- Expanding by a non-epsilon production: attaching one fresh placeholder
child per production symbol to the leftmost pending placeholder replaces
that frontier entry by the production's symbols, paths extended by the
child index. -/
theorem shape_expand : ∀ (t : PTree) (ts : List Token) (pend : List (String × TreePath)),
    Shape t ts pend → ∀ (a : String) (p : TreePath)
    (pend₂ : List (String × TreePath)) (prod : List String),
    pend = (a, p) :: pend₂ → prod ≠ [] → (∀ σ ∈ prod, σ ≠ EPSILON) →
    Shape (addChildrenAt t p (prod.map (fun σ => PTree.node σ "" []))) ts
      (prod.enum.map (fun e => (e.2, p ++ [e.1])) ++ pend₂)
  | _, _, _, .ph s hs => by
    intro a p pend₂ prod hEq hprodne hnoeps
    injection hEq with h1 h2
    injection h1 with h1a h1b
    subst h1a h1b h2
    rw [addChildrenAt_nil, List.nil_append, List.append_nil]
    refine Shape.inner s (prod.map (fun σ => PTree.node σ "" [])) [] _ hs ?_ ?_
    · intro h0
      rcases prod with _ | ⟨x, xs⟩
      · exact hprodne rfl
      · simp at h0
    · exact phs_kids 0 _ _ (phs_of_prod prod 0 hnoeps)
  | _, _, _, .tleaf s tk hs ht => by
    intro a p pend₂ prod hEq hprodne hnoeps
    exact List.noConfusion hEq
  | _, _, _, .eleaf => by
    intro a p pend₂ prod hEq hprodne hnoeps
    exact List.noConfusion hEq
  | _, _, _, .inner A cs ts pend hA hcs hk => by
    intro a p pend₂ prod hEq hprodne hnoeps
    obtain ⟨j, p2, hp1, _, hk2⟩ := kids_expand 0 cs ts pend hk a p pend₂ prod hEq
      hprodne hnoeps
    subst hp1
    rw [addChildrenAt_cons]
    refine Shape.inner A _ ts _ hA ?_ hk2
    intro h0
    have hlen := addChildrenAtL_length (prod.map (fun σ => PTree.node σ "" [])) cs j p2
    rw [h0] at hlen
    exact hcs (List.length_eq_zero.mp hlen.symm)

theorem kids_expand : ∀ (i : Nat) (cs : List PTree) (ts : List Token)
    (pend : List (String × TreePath)), Kids i cs ts pend →
    ∀ (a : String) (p : TreePath) (pend₂ : List (String × TreePath))
    (prod : List String),
    pend = (a, p) :: pend₂ → prod ≠ [] → (∀ σ ∈ prod, σ ≠ EPSILON) →
    ∃ j p2, p = j :: p2 ∧ i ≤ j ∧
      Kids i (addChildrenAtL cs (j - i) p2 (prod.map (fun σ => PTree.node σ "" []))) ts
        (prod.enum.map (fun e => (e.2, p ++ [e.1])) ++ pend₂)
  | _, _, _, _, .nil i => by
    intro a p pend₂ prod hEq hprodne hnoeps
    exact List.noConfusion hEq
  | _, _, _, _, .done i c cs ts ts' pend hc hk => by
    intro a p pend₂ prod hEq hprodne hnoeps
    obtain ⟨j, p2, hp1, hij, hk2⟩ := kids_expand (i+1) cs ts' pend hk a p pend₂ prod hEq
      hprodne hnoeps
    refine ⟨j, p2, hp1, by omega, ?_⟩
    have hj : j - i = (j - (i+1)) + 1 := by omega
    rw [hj, addChildrenAtL_succ]
    exact Kids.done i c _ ts ts' _ hc hk2
  | _, _, _, _, .act i c cs ts ⟨qa, qp⟩ qs pend2 hc hp => by
    intro a p pend₂ prod hEq hprodne hnoeps
    simp only [List.map_cons, List.cons_append] at hEq
    injection hEq with h1 h2
    injection h1 with h1a h1b
    subst h1a h1b h2
    refine ⟨i, qp, rfl, Nat.le_refl i, ?_⟩
    rw [Nat.sub_self, addChildrenAtL_zero]
    have hc2 := shape_expand c ts ((qa, qp) :: qs) hc qa qp qs prod rfl hprodne hnoeps
    have hne0 : prod.enum.map (fun e => (e.2, qp ++ [e.1])) ++ qs ≠ [] := by
      rcases prod with _ | ⟨x, xs⟩
      · exact absurd rfl hprodne
      · simp
    obtain ⟨q3, qs3, hsplit⟩ := List.exists_cons_of_ne_nil hne0
    rw [hsplit] at hc2
    have hact := Kids.act i (addChildrenAt c qp (prod.map (fun σ => PTree.node σ "" [])))
      cs ts q3 qs3 pend2 hc2 hp
    rw [← hsplit, List.map_append, enum_map_reindex, List.append_assoc] at hact
    exact hact
end

theorem filter_map_cons_keep {α β : Type} (P : α → Bool) (F : α → β) (a : α)
    (l : List α) (h : P a = true) :
    (List.filter P (a :: l)).map F = F a :: (List.filter P l).map F := by
  simp [List.filter_cons, h]

theorem filter_map_cons_skip {α β : Type} (P : α → Bool) (F : α → β) (a : α)
    (l : List α) (h : P a = false) :
    (List.filter P (a :: l)).map F = (List.filter P l).map F := by
  simp [List.filter_cons, h]

mutual
/-- A fully built subtree's preorder traversal, restricted to terminal
leaves (epsilon suppressed), lists exactly its consumed tokens as
(terminal, lexeme) pairs, in order. -/
theorem shape_leaves : ∀ (t : PTree) (ts : List Token)
    (pend : List (String × TreePath)), Shape t ts pend → pend = [] → ∀ d : Nat,
    ((preorderNodes t d false).filter (fun e => e.2.is_terminal)).map
      (fun e => (e.2.symbol, e.2.value)) = ts.map tokDescr
  | _, _, _, .ph s hs => by
    intro hEq
    exact List.noConfusion hEq
  | _, _, _, .tleaf s tk hs ht => by
    intro _ d
    have h1 : preorderNodes (.node s tk.value []) d false
        = [(d, PTree.node s tk.value [])] := by
      unfold preorderNodes
      rw [if_neg (fun hcon => hs hcon.1)]
      rfl
    have h2 : (PTree.node s tk.value []).is_terminal = true := by
      simp [PTree.is_terminal, PTree.children, PTree.symbol, hs]
    rw [h1, filter_map_cons_keep (fun e : Nat × PTree => e.2.is_terminal)
      (fun e : Nat × PTree => (e.2.symbol, e.2.value))
      (d, PTree.node s tk.value []) [] h2]
    simp [PTree.symbol, PTree.value, tokDescr, ht]
  | _, _, _, .eleaf => by
    intro _ d
    have h1 : preorderNodes (.node EPSILON "" []) d false = [] := by
      unfold preorderNodes
      rw [if_pos ⟨rfl, rfl⟩]
    rw [h1]
    rfl
  | _, _, _, .inner A cs ts pend hA hcs hk => by
    intro hEq d
    subst hEq
    have h1 : preorderNodes (.node A "" cs) d false
        = (d, PTree.node A "" cs) :: preorderNodesL cs (d+1) false := by
      unfold preorderNodes
      rw [if_neg (fun hcon => hA hcon.1)]
    have h2 : (PTree.node A "" cs).is_terminal = false := by
      rcases cs with _ | ⟨c, cs⟩
      · exact absurd rfl hcs
      · simp [PTree.is_terminal, PTree.children]
    rw [h1, filter_map_cons_skip (fun e : Nat × PTree => e.2.is_terminal)
      (fun e : Nat × PTree => (e.2.symbol, e.2.value))
      (d, PTree.node A "" cs) (preorderNodesL cs (d+1) false) h2]
    exact kids_leaves 0 cs ts [] hk rfl (d+1)

theorem kids_leaves : ∀ (i : Nat) (cs : List PTree) (ts : List Token)
    (pend : List (String × TreePath)), Kids i cs ts pend → pend = [] → ∀ d : Nat,
    ((preorderNodesL cs d false).filter (fun e => e.2.is_terminal)).map
      (fun e => (e.2.symbol, e.2.value)) = ts.map tokDescr
  | _, _, _, _, .nil i => by
    intro _ d
    rfl
  | _, _, _, _, .done i c cs ts ts' pend hc hk => by
    intro hEq d
    subst hEq
    have h1 : preorderNodesL (c :: cs) d false
        = preorderNodes c d false ++ preorderNodesL cs d false := rfl
    rw [h1, List.filter_append, List.map_append,
      shape_leaves c ts [] hc rfl d, kids_leaves (i+1) cs ts' [] hk rfl d,
      List.map_append]
  | _, _, _, _, .act i c cs ts q qs pend2 hc hp => by
    intro hEq
    simp at hEq
end

/-- Under the frontier invariant, the popped stack entry is either the
bottom end marker (empty frontier) or the frontier's head with its path. -/
theorem stack_head_decomp {s : PState} {pend : List (String × TreePath)}
    {top : String} {topN : Option TreePath} {rest : List (String × Option TreePath)}
    (hstk : s.stack = pend.map (fun e => (e.1, some e.2)) ++ [("$", none)])
    (hs : s.stack = (top, topN) :: rest) :
    (pend = [] ∧ top = "$" ∧ topN = none ∧ rest = []) ∨
    (∃ a p pend₂, pend = (a, p) :: pend₂ ∧ top = a ∧ topN = some p ∧
      rest = pend₂.map (fun e => (e.1, some e.2)) ++ [("$", none)]) := by
  rcases pend with _ | ⟨⟨a, p⟩, pend₂⟩
  · left
    have h := hstk.symm.trans hs
    simp only [List.map_nil, List.nil_append] at h
    injection h with h1 h2
    injection h1 with h1a h1b
    exact ⟨rfl, h1a.symm, h1b.symm, h2.symm⟩
  · right
    have h := hstk.symm.trans hs
    simp only [List.map_cons, List.cons_append] at h
    injection h with h1 h2
    injection h1 with h1a h1b
    exact ⟨a, p, pend₂, rfl, h1a.symm, h1b.symm, h2.symm⟩

/-- One continuing step preserves the frontier invariant. -/
theorem parserInv_next {s s' : PState} (h : step s = .next s') (hInv : TermInv s)
    (hP : ParserInv s) : ParserInv s' := by
  obtain ⟨pend, hstk, hshape, hvalid⟩ := hP
  obtain ⟨top, topN, rest, cur, hs, hc, htoks, hcase⟩ := step_next_cases h
  rcases stack_head_decomp hstk hs with ⟨hpE, htopD, htopN, hrest⟩ |
    ⟨a, p, pend₂, hpE, htopA, htopN, hrest⟩
  · -- bottom `$` popped: no branch continues
    exfalso
    subst htopD
    rcases hcase with hmatch | heps | hepsprod | hexp | hjunk
    · exact hmatch.2.2.1 ⟨rfl, hmatch.2.1.symm⟩
    · exact absurd heps.1 (by decide)
    · exact absurd hepsprod.2.2.1 (by decide)
    · obtain ⟨prod, _, _, hnt, _⟩ := hexp
      exact absurd hnt (by decide)
    · exact hjunk.1 ⟨by decide, by decide⟩
  · rw [hpE] at hshape
    have hva := hvalid (a, p) (by rw [hpE]; exact List.mem_cons_self _ _)
    have hvtail : ∀ e ∈ pend₂, (is_terminal e.1 ∨ is_nonterminal e.1) ∧ e.1 ≠ "$" ∧
        e.1 ≠ EPSILON :=
      fun e he => hvalid e (by rw [hpE]; exact List.mem_cons_of_mem _ he)
    rcases hcase with hmatch | heps | hepsprod | hexp | hjunk
    · -- terminal match
      obtain ⟨⟨hterm, hneps⟩, hm, hacc, hpos, hstk2, htree⟩ := hmatch
      have hga : get_terminal cur = a := hm.symm.trans htopA
      have hcurd : get_terminal cur ≠ "$" := fun hd => hacc ⟨hm.trans hd, hd⟩
      have hadv := match_pos_succ hInv hc hcurd
      have hget : s.tokens.get? s.pos = some cur :=
        (current_token_eq hInv.2.2.1).symm.trans hc
      have htake := take_succ_of_get hget
      have htreeD : s'.tree = setValueAt s.tree p cur.value := by
        rw [htree, htopN]
      refine ⟨pend₂, ?_, ?_, fun e he => hvtail e he⟩
      · rw [hstk2, hrest]
      · rw [htreeD, htoks, hpos, hadv.1, htake]
        exact shape_set s.tree (s.tokens.take s.pos) ((a, p) :: pend₂) hshape
          a p pend₂ cur rfl hga
    · -- epsilon marker on the stack: excluded by the invariant
      exact absurd (htopA ▸ heps.1) hva.2.2
    · -- the `[ε]` production
      obtain ⟨hterm2, hneps, hnt, hprod, hpos, hstk2, htree⟩ := hepsprod
      have htreeD : s'.tree = addChildAt s.tree p (.node EPSILON "" []) := by
        rw [htree, htopN]
      refine ⟨pend₂, ?_, ?_, fun e he => hvtail e he⟩
      · rw [hstk2, hrest]
      · rw [htreeD, htoks, hpos]
        exact shape_eps s.tree (s.tokens.take s.pos) ((a, p) :: pend₂) hshape
          a p pend₂ rfl
    · -- a real expansion
      obtain ⟨prod, hterm2, hneps, hnt, hprod, hpne, hpos, hdisj⟩ := hexp
      rcases hdisj with ⟨p3, hp3, hstk2, htree⟩ | ⟨hN, _, _⟩
      · have hpp : p3 = p := by
          rw [htopN] at hp3
          exact (Option.some_inj.mp hp3).symm
        rw [hpp] at hstk2 htree
        have hfacts := tableFacts _ (get_production_mem hprod)
        have hprodne : prod ≠ [] := hfacts.2.1
        have hnodol : ¬ "$" ∈ prod := hfacts.2.2.1
        have hnoeps : ¬ EPSILON ∈ prod := hfacts.2.2.2.1 hpne
        have hsymok := hfacts.2.2.2.2.1
        refine ⟨prod.enum.map (fun e => (e.2, p ++ [e.1])) ++ pend₂, ?_, ?_, ?_⟩
        · rw [hstk2, hrest, List.map_append, List.map_map, List.append_assoc]
          rfl
        · have htreeD : s'.tree = addChildrenAt s.tree p
              (prod.map (fun σ => PTree.node σ "" [])) := htree
          rw [htreeD, htoks, hpos]
          exact shape_expand s.tree (s.tokens.take s.pos) ((a, p) :: pend₂) hshape
            a p pend₂ prod rfl hprodne
            (fun σ hσ he => hnoeps (he ▸ hσ))
        · intro e he
          rcases List.mem_append.mp he with hin | hin
          · have hσ : e.1 ∈ prod := mem_fst_enum_push hin
            exact ⟨hsymok _ hσ, fun hd => hnodol (hd ▸ hσ), fun hd => hnoeps (hd ▸ hσ)⟩
          · exact hvtail e hin
      · rw [htopN] at hN
        exact Option.noConfusion hN
    · -- silently discarded junk: excluded by the invariant
      exfalso
      obtain ⟨hnterm, hneps, hnnt, _⟩ := hjunk
      rcases hva.1 with ht | hn
      · exact hnterm ⟨by rw [htopA]; exact ht, by rw [htopA]; exact hva.2.2⟩
      · rw [htopA, hn] at hnnt
        cases hnnt

/-- At an accepting halt the frontier is empty and the cursor sits on the
final EOF token: the tree accounts for exactly all tokens before it. -/
theorem parserInv_accept0 {s : PState} {T : PTree} (h : step s = .halt (.accepted T))
    (hInv : TermInv s) (hP : ParserInv s) :
    Shape T (s.tokens.take s.pos) [] ∧ termAt s.tokens s.pos = "$" := by
  obtain ⟨pend, hstk, hshape, hvalid⟩ := hP
  obtain ⟨hT, topN, rest, cur, hs, hc, hcur⟩ := step_accept_cases h
  rcases stack_head_decomp hstk hs with ⟨hpE, _, _, _⟩ |
    ⟨a, p, pend₂, hpE, htopA, _, _⟩
  · subst hpE hT
    have hposlt := hInv.2.2.1
    have hterm : termAt s.tokens s.pos = "$" := by
      rw [lookahead_eq_termAt hposlt hc]
      exact hcur
    exact ⟨hshape, hterm⟩
  · exfalso
    have hva := hvalid (a, p) (by rw [hpE]; exact List.mem_cons_self _ _)
    exact hva.2.1 htopA.symm

/-- The eofOnlyAtEnd specialisation: at an accepting halt the cursor sits on
the final EOF token, so the tree accounts for exactly all tokens before
it. -/
theorem parserInv_accept {s : PState} {T : PTree} (h : step s = .halt (.accepted T))
    (hInv : TermInv s) (hP : ParserInv s) (he : eofOnlyAtEnd s.tokens) :
    Shape T s.tokens.dropLast [] := by
  obtain ⟨hshape, hterm⟩ := parserInv_accept0 h hInv hP
  have hpos : s.pos = s.tokens.length - 1 := (he.2 s.pos hInv.2.2.1).mp hterm
  rw [dropLast_take s.tokens, ← hpos]
  exact hshape

/-- Master lemma: from an invariant state, an accepted run's tree has
terminal leaves spelling all tokens before the final EOF, in order. -/
theorem run_accept_leaves : ∀ (n : Nat) (s : PState) (T : PTree),
    TermInv s → ParserInv s → eofOnlyAtEnd s.tokens →
    runParser n s = some (.accepted T) →
    terminalLeafEntries T = s.tokens.dropLast.map tokDescr := by
  intro n
  induction n with
  | zero =>
    intro s T _ _ _ hrun
    cases hrun
  | succ n ih =>
    intro s T hInv hP he hrun
    rw [runParser_succ] at hrun
    rcases hstep : step s with r | s'
    · rw [hstep] at hrun
      have hr : r = .accepted T := Option.some_inj.mp hrun
      subst hr
      have hsh := parserInv_accept hstep hInv hP he
      unfold terminalLeafEntries
      exact shape_leaves T s.tokens.dropLast [] hsh rfl 0
    · rw [hstep] at hrun
      obtain ⟨htoks, hInv2, _⟩ := step_next_measure hstep hInv
      have hP2 := parserInv_next hstep hInv hP
      have he2 : eofOnlyAtEnd s'.tokens := htoks ▸ he
      have hres := ih s' T hInv2 hP2 he2 hrun
      rw [htoks] at hres
      exact hres

/-- Variant without the well-placed-EOF hypothesis: an accepted run's tree
has terminal leaves spelling the tokens before wherever the cursor stopped —
some position holding an end-of-input terminal. -/
theorem run_accept_leaves_any : ∀ (n : Nat) (s : PState) (T : PTree),
    TermInv s → ParserInv s →
    runParser n s = some (.accepted T) →
    ∃ p, p < s.tokens.length ∧ termAt s.tokens p = "$" ∧
      terminalLeafEntries T = (s.tokens.take p).map tokDescr := by
  intro n
  induction n with
  | zero =>
    intro s T _ _ hrun
    cases hrun
  | succ n ih =>
    intro s T hInv hP hrun
    rw [runParser_succ] at hrun
    rcases hstep : step s with r | s'
    · rw [hstep] at hrun
      have hr : r = .accepted T := Option.some_inj.mp hrun
      subst hr
      obtain ⟨hsh, hterm⟩ := parserInv_accept0 hstep hInv hP
      refine ⟨s.pos, hInv.2.2.1, hterm, ?_⟩
      unfold terminalLeafEntries
      exact shape_leaves T (s.tokens.take s.pos) [] hsh rfl 0
    · rw [hstep] at hrun
      obtain ⟨htoks, hInv2, _⟩ := step_next_measure hstep hInv
      have hP2 := parserInv_next hstep hInv hP
      obtain ⟨p, hplt, hpdol, hres⟩ := ih s' T hInv2 hP2 hrun
      rw [htoks] at hplt hpdol hres
      exact ⟨p, hplt, hpdol, hres⟩

/-- The start state satisfies the frontier invariant: a lone `Program`
placeholder over the untouched root. -/
theorem initParser_parserInv (ts : List Token) : ParserInv (initParser ts) := by
  refine ⟨[("Program", [])], rfl, Shape.ph "Program" (by decide), ?_⟩
  intro e he2
  have h3 : e = ("Program", ([] : TreePath)) := List.mem_singleton.mp he2
  subst h3
  exact ⟨Or.inr (by decide), by decide, by decide⟩

/-- C1, as amended: for every token sequence whose end-of-input token
appears exactly at the end (the shape `tokenize` always produces), whenever
`parse` accepts, the preorder traversal of the returned tree restricted to
terminal leaves (epsilon ignored) lists, in order, exactly the tokens
before the final EOF — each leaf carrying the corresponding token's
terminal and recorded lexeme.  (For arbitrary token lists the original
claim fails: see the counterexample with an interior EOF token.) -/
theorem claim_C1 (ts : List Token) (he : eofOnlyAtEnd ts) (n : Nat) (T : PTree)
    (hrun : runParser n (initParser ts) = some (.accepted T)) :
    terminalLeafEntries T = ts.dropLast.map tokDescr := by
  have hlast := eofOnly_last he
  have hInv := initParser_termInv he.1 hlast
  exact run_accept_leaves n (initParser ts) T hInv (initParser_parserInv ts) he hrun

/-- An outcome flagged as an ACCEPT is an ACCEPT of some tree. -/
theorem outcomeAccepted_spec {o : Option Outcome} (h : outcomeAccepted o = true) :
    ∃ T, o = some (.accepted T) := by
  rcases o with _ | r
  · cases h
  · rcases r with T | e | _
    · exact ⟨T, rfl⟩
    · cases h
    · cases h

set_option maxHeartbeats 1000000 in
/-- Counterexample to C1 as stated (over arbitrary accepted token
sequences): with an identifier hidden behind an interior EOF token the
parser still accepts, but the tree's terminal leaves do not cover every
non-EOF token of the stream — the trailing identifier is lost.  (The leaf
list is ruled out by its length: the accepted tree's leaves spell the
tokens strictly before some end-of-input position of `midEofToks`, and no
such prefix holds its seven non-EOF tokens.) -/
theorem claim_C1_counterexample :
    outcomeAccepted (runParser 99 (initParser midEofToks)) = true ∧
    ¬ eofOnlyAtEnd midEofToks ∧
    outcomeLeaves (runParser 99 (initParser midEofToks)) ≠
      some ((midEofToks.filter (fun tk => !(tk.type == TokenType.EOF))).map tokDescr) := by
  have hacc : outcomeAccepted (runParser 99 (initParser midEofToks)) = true := rfl
  obtain ⟨T, hrun⟩ := outcomeAccepted_spec hacc
  refine ⟨hacc, of_decide_eq_true rfl, ?_⟩
  have hInv : TermInv (initParser midEofToks) :=
    initParser_termInv (by decide) (by decide)
  obtain ⟨p, hplt, hpdol, hleaves⟩ :=
    run_accept_leaves_any 99 _ T hInv (initParser_parserInv midEofToks) hrun
  rw [hrun]
  intro hEq
  have hEq1 : some (terminalLeafEntries T) =
      some ((midEofToks.filter (fun tk => !(tk.type == TokenType.EOF))).map tokDescr) :=
    hEq
  have hEq2 := Option.some_inj.mp hEq1
  rw [hleaves] at hEq2
  have hlen := congrArg List.length hEq2
  rw [List.length_map, List.length_map, List.length_take] at hlen
  have hp9 : p < 9 := hplt
  have hpdol9 : termAt midEofToks p = "$" := hpdol
  have hlen9 : min p 9 = 7 := hlen
  interval_cases p <;> revert hpdol9 hlen9 <;> decide

set_option maxHeartbeats 2000000 in
/-- Witness for C1 at the accepted program
`program test; var x: integer; begin x := 5 end.`. -/
theorem claim_C1_witness :
    eofOnlyAtEnd acceptToks ∧
    ∃ T, runParser 99 (initParser acceptToks) = some (.accepted T) ∧
      terminalLeafEntries T = acceptToks.dropLast.map tokDescr := by
  have hacc : outcomeAccepted (runParser 99 (initParser acceptToks)) = true := rfl
  obtain ⟨T, hrun⟩ := outcomeAccepted_spec hacc
  exact ⟨of_decide_eq_true rfl, T, hrun,
    claim_C1 acceptToks (of_decide_eq_true rfl) 99 T hrun⟩

/-! ## Claim C7 — case-insensitive keyword recognition, casing preserved -/

theorem get_of_drop {α : Type} : ∀ (src : List α) (pos : Nat) (x : α) (rest : List α),
    src.drop pos = x :: rest → src.get? pos = some x
  | [], pos, x, rest, h => by
    rw [List.drop_nil] at h
    exact List.noConfusion h
  | a :: src, 0, x, rest, h => by
    have h2 : a :: src = x :: rest := h
    exact congrArg some (List.cons.inj h2).1
  | a :: src, pos+1, x, rest, h => get_of_drop src pos x rest h

theorem drop_succ_of_drop {α : Type} : ∀ (src : List α) (pos : Nat) (x : α)
    (rest : List α), src.drop pos = x :: rest → src.drop (pos+1) = rest
  | [], pos, x, rest, h => by
    rw [List.drop_nil] at h
    exact List.noConfusion h
  | a :: src, 0, x, rest, h => by
    have h2 : a :: src = x :: rest := h
    exact (List.cons.inj h2).2
  | a :: src, pos+1, x, rest, h => drop_succ_of_drop src pos x rest h

theorem identish_ne_newline {x : Char} (h : isAlnumChar x = true ∨ x = '_') :
    x ≠ '\n' := by
  rintro rfl
  rcases h with h | h
  · exact absurd h (by decide)
  · exact absurd h (by decide)

/-- `Lexer.advance` off a non-newline character just moves the cursor and
column. -/
theorem advanceL_plain {src : List Char} {pos line col : Nat} {toks : List Token}
    {x : Char} (hget : src.get? pos = some x) (hxn : x ≠ '\n') :
    advanceL ⟨src, pos, line, col, toks⟩ = ⟨src, pos + 1, line, col + 1, toks⟩ := by
  unfold advanceL
  dsimp only
  rw [hget]
  split
  · rename_i heq
    injection heq with heq
    exact absurd heq hxn
  · rfl

/-- An identifier's head character triggers none of the earlier branches of
the `tokenize` loop body. -/
theorem ident_head_facts {c : Char} (h : isAlphaChar c = true ∨ c = '_') :
    isSpaceChar c = false ∧ c ≠ '{' ∧ c ≠ '(' ∧ isDigitChar c = false := by
  rcases h with h | h
  · have hne : ∀ d : Char, isAlphaChar d = false → c ≠ d := by
      intro d hd he
      rw [he, hd] at h
      cases h
    refine ⟨?_, hne '{' (by decide), hne '(' (by decide), ?_⟩
    · have h1 := hne ' ' (by decide)
      have h2 := hne '\t' (by decide)
      have h3 := hne '\n' (by decide)
      have h4 := hne '\r' (by decide)
      have h5 := hne '\x0b' (by decide)
      have h6 := hne '\x0c' (by decide)
      simp [isSpaceChar, h1, h2, h3, h4, h5, h6]
    · unfold isAlphaChar at h
      unfold isDigitChar
      simp [Char.isAlpha, Char.isUpper, Char.isLower, Char.isDigit] at h ⊢
      intro h3
      have h3n : 48 ≤ c.val.toNat := h3
      show (57 : Nat) < c.val.toNat
      rcases h with ⟨h1, _⟩ | ⟨h1, _⟩
      · have h1n : 65 ≤ c.val.toNat := h1
        omega
      · have h1n : 97 ≤ c.val.toNat := h1
        omega
  · subst h
    exact ⟨by decide, by decide, by decide, by decide⟩

/-- The identifier-reading loop consumes an all-identifier-character tail of
the input in full, accumulating it in order and advancing the column one per
character. -/
theorem readIdentAux_all : ∀ (rest : List Char) (fuel : Nat) (src : List Char)
    (pos line col : Nat) (toks : List Token) (acc : List Char),
    src.drop pos = rest → rest.length ≤ fuel →
    (∀ x ∈ rest, isAlnumChar x = true ∨ x = '_') →
    readIdentAux fuel ⟨src, pos, line, col, toks⟩ acc =
      (acc ++ rest, ⟨src, pos + rest.length, line, col + rest.length, toks⟩) := by
  intro rest
  induction rest with
  | nil =>
    intro fuel src pos line col toks acc hdrop hfuel hall
    have hnone : currentChar ⟨src, pos, line, col, toks⟩ = none := by
      show src.get? pos = none
      exact List.get?_eq_none.mpr (List.drop_eq_nil_iff_le.mp hdrop)
    rw [List.append_nil]
    cases fuel with
    | zero => rfl
    | succ f =>
      unfold readIdentAux
      rw [hnone]
      rfl
  | cons x rest ih =>
    intro fuel src pos line col toks acc hdrop hfuel hall
    have hget : src.get? pos = some x := get_of_drop src pos x rest hdrop
    have hcc : currentChar ⟨src, pos, line, col, toks⟩ = some x := hget
    have hx : isAlnumChar x = true ∨ x = '_' := hall x (List.mem_cons_self _ _)
    cases fuel with
    | zero =>
      exact absurd hfuel (by simp)
    | succ f =>
      unfold readIdentAux
      rw [hcc]
      dsimp only
      rw [if_pos hx, advanceL_plain hget (identish_ne_newline hx)]
      rw [ih f src (pos+1) line (col+1) toks (acc ++ [x])
        (drop_succ_of_drop src pos x rest hdrop)
        (by simp only [List.length_cons] at hfuel; omega)
        (fun y hy => hall y (List.mem_cons_of_mem _ hy))]
      have h1 : (acc ++ [x]) ++ rest = acc ++ x :: rest := by
        rw [List.append_assoc]
        rfl
      simp only [List.length_cons]
      rw [h1, show pos + 1 + rest.length = pos + (rest.length + 1) by omega,
        show col + 1 + rest.length = col + (rest.length + 1) by omega]

/-- `Lexer.read_identifier` on a state whose remaining input is one whole
word: reads it all, classifies by the lowercased spelling, keeps the
original casing. -/
theorem read_identifier_all (src : List Char) (line col : Nat) (toks : List Token)
    (hall : ∀ x ∈ src, isAlnumChar x = true ∨ x = '_') :
    read_identifier ⟨src, 0, line, col, toks⟩ =
      ((⟨(KEYWORDS.lookup (lowerStr (String.mk src))).getD TokenType.ID,
         String.mk src, line, col⟩ : Token),
       ⟨src, 0 + src.length, line, col + src.length, toks⟩) := by
  unfold read_identifier
  dsimp only
  rw [readIdentAux_all src (src.length - 0) src 0 line col toks [] rfl
    (Nat.le_refl _) hall]
  dsimp only
  rw [List.nil_append]
  rcases hk : KEYWORDS.lookup (lowerStr (String.mk src)) with _ | tt <;> rfl

/-- A lookahead that starts an identifier sends the `tokenize` loop into
`read_identifier`. -/
theorem tokenizeAux_ident_step (fuel : Nat) (st : LexSt) (c : Char)
    (hcc : currentChar st = some c) (hhead : isAlphaChar c = true ∨ c = '_') :
    tokenizeAux (fuel + 1) st =
      (match read_identifier st with
       | (tok, st') => tokenizeAux fuel (emitTok st' tok)) := by
  obtain ⟨hsp, hbr, hpa, hdg⟩ := ident_head_facts hhead
  unfold tokenizeAux
  rw [hcc]
  dsimp only
  rw [if_neg (by simp [hsp]), if_neg ?hcmt, if_neg (by simp [hdg]), if_pos hhead]
  case hcmt =>
    rintro (h | ⟨h, _⟩)
    · exact hbr h
    · exact hpa h
  exact tokenizeAux.eq_def _ _

/-- The `tokenize` loop at end of input emits the EOF token. -/
theorem tokenizeAux_eof (fuel : Nat) (st : LexSt) (h : currentChar st = none) :
    tokenizeAux fuel st =
      some (.ok (st.tokens ++ [⟨.EOF, "$", st.line, st.column⟩])) := by
  cases fuel with
  | zero =>
    unfold tokenizeAux
    rw [h]
  | succ f =>
    unfold tokenizeAux
    rw [h]

/-- A whole-word input tokenizes to a single word token — keyword type by
the lowercased spelling, `ID` otherwise, in either case with the original
spelling as the lexeme — followed by EOF. -/
theorem tokenize_word (c : Char) (cs : List Char)
    (hhead : isAlphaChar c = true ∨ c = '_')
    (hall : ∀ x ∈ c :: cs, isAlnumChar x = true ∨ x = '_') :
    tokenize (String.mk (c :: cs)) = some (.ok
      [⟨(KEYWORDS.lookup (lowerStr (String.mk (c :: cs)))).getD TokenType.ID,
        String.mk (c :: cs), 1, 1⟩,
       ⟨.EOF, "$", 1, 1 + (c :: cs).length⟩]) := by
  have h1 : tokenize (String.mk (c :: cs))
      = tokenizeAux ((c :: cs).length + 1) ⟨c :: cs, 0, 1, 1, []⟩ := rfl
  rw [h1, tokenizeAux_ident_step ((c :: cs).length) ⟨c :: cs, 0, 1, 1, []⟩ c rfl hhead,
    read_identifier_all (c :: cs) 1 1 [] hall]
  dsimp only
  rw [tokenizeAux_eof]
  · rfl
  · show (c :: cs).get? (0 + (c :: cs).length) = none
    rw [Nat.zero_add]
    exact List.get?_eq_none.mpr (Nat.le_refl _)

/-- C7: keyword recognition is case-insensitive while the token keeps the
original casing — `PROGRAM`, `Program`, `program` all yield the `PROGRAM`
keyword token with their own spelling as lexeme, `Program1` (lowercasing
not in the keyword set) yields an `ID` token, and in general any word
`[A-Za-z_][A-Za-z0-9_]*` tokenizes to one token whose type is the keyword
found for its lowercased spelling (`ID` when none) and whose lexeme is the
original spelling. -/
theorem claim_C7 :
    tokenize "PROGRAM" = some (.ok
      [⟨.PROGRAM, "PROGRAM", 1, 1⟩, ⟨.EOF, "$", 1, 8⟩]) ∧
    tokenize "Program" = some (.ok
      [⟨.PROGRAM, "Program", 1, 1⟩, ⟨.EOF, "$", 1, 8⟩]) ∧
    tokenize "program" = some (.ok
      [⟨.PROGRAM, "program", 1, 1⟩, ⟨.EOF, "$", 1, 8⟩]) ∧
    tokenize "Program1" = some (.ok
      [⟨.ID, "Program1", 1, 1⟩, ⟨.EOF, "$", 1, 9⟩]) ∧
    (∀ (c : Char) (cs : List Char),
      isAlphaChar c = true ∨ c = '_' →
      (∀ x ∈ c :: cs, isAlnumChar x = true ∨ x = '_') →
      tokenize (String.mk (c :: cs)) = some (.ok
        [⟨(KEYWORDS.lookup (lowerStr (String.mk (c :: cs)))).getD TokenType.ID,
          String.mk (c :: cs), 1, 1⟩,
         ⟨.EOF, "$", 1, 1 + (c :: cs).length⟩])) :=
  ⟨rfl, rfl, rfl, rfl, tokenize_word⟩

/-- Witness for C7's general word statement at the word `If`. -/
theorem claim_C7_witness :
    tokenize (String.mk ('I' :: ['f'])) = some (.ok
      [⟨(KEYWORDS.lookup (lowerStr (String.mk ('I' :: ['f'])))).getD TokenType.ID,
        String.mk ('I' :: ['f']), 1, 1⟩,
       ⟨.EOF, "$", 1, 1 + ('I' :: ['f']).length⟩]) :=
  claim_C7.2.2.2.2 'I' ['f'] (by decide) (by decide)

/-! ## Claim C8 — unterminated comments are consumed silently -/

theorem get_eq_get_drop {α : Type} (src : List α) (pos : Nat) (rest : List α)
    (h : src.drop pos = rest) : src.get? pos = rest.get? 0 := by
  rcases rest with _ | ⟨x, rest⟩
  · exact List.get?_eq_none.mpr (List.drop_eq_nil_iff_le.mp h)
  · exact get_of_drop src pos x rest h

theorem pos_lt_of_get {α : Type} {src : List α} {pos : Nat} {x : α}
    (hget : src.get? pos = some x) : pos < src.length := by
  by_contra h0
  rw [List.get?_eq_none.mpr (by omega)] at hget
  cases hget

/-- `Lexer.advance` always just moves the cursor on the same source and
token list (line and column move in one of two ways). -/
theorem advanceL_shape (src : List Char) (pos line col : Nat) (toks : List Token) :
    ∃ l2 c2, advanceL ⟨src, pos, line, col, toks⟩ = ⟨src, pos + 1, l2, c2, toks⟩ := by
  unfold advanceL
  dsimp only
  split
  · exact ⟨line + 1, 1, rfl⟩
  · exact ⟨line, col + 1, rfl⟩

/-- The `{ ... }` scan loop with no closing brace left runs to end of
input. -/
theorem skipBraceAux_all : ∀ (rest : List Char) (fuel : Nat) (src : List Char)
    (pos line col : Nat) (toks : List Token),
    src.drop pos = rest → rest.length ≤ fuel → pos ≤ src.length →
    (∀ x ∈ rest, x ≠ '}') →
    ∃ line2 col2, skipBraceAux fuel ⟨src, pos, line, col, toks⟩ =
      ⟨src, src.length, line2, col2, toks⟩ := by
  intro rest
  induction rest with
  | nil =>
    intro fuel src pos line col toks hdrop hfuel hpos hall
    have hlen : src.length ≤ pos := List.drop_eq_nil_iff_le.mp hdrop
    have heq : pos = src.length := Nat.le_antisymm hpos hlen
    have hnone : currentChar ⟨src, pos, line, col, toks⟩ = none := by
      show src.get? pos = none
      exact List.get?_eq_none.mpr hlen
    refine ⟨line, col, ?_⟩
    cases fuel with
    | zero =>
      rw [heq]
      rfl
    | succ f =>
      unfold skipBraceAux
      rw [hnone, heq]
  | cons x rest ih =>
    intro fuel src pos line col toks hdrop hfuel hpos hall
    have hget : src.get? pos = some x := get_of_drop src pos x rest hdrop
    have hcc : currentChar ⟨src, pos, line, col, toks⟩ = some x := hget
    cases fuel with
    | zero => exact absurd hfuel (by simp)
    | succ f =>
      unfold skipBraceAux
      rw [hcc]
      dsimp only
      rw [if_pos (hall x (List.mem_cons_self _ _))]
      obtain ⟨l2, c2, hadv⟩ := advanceL_shape src pos line col toks
      rw [hadv]
      exact ih f src (pos+1) l2 c2 toks (drop_succ_of_drop src pos x rest hdrop)
        (by simp only [List.length_cons] at hfuel; omega)
        (pos_lt_of_get hget)
        (fun y hy => hall y (List.mem_cons_of_mem _ hy))

/-- The `(* ... *)` scan loop with no `*)` pair left runs to end of
input. -/
theorem skipParenAux_all : ∀ (rest : List Char) (fuel : Nat) (src : List Char)
    (pos line col : Nat) (toks : List Token),
    src.drop pos = rest → rest.length ≤ fuel → pos ≤ src.length →
    (∀ i, ¬(rest.get? i = some '*' ∧ rest.get? (i+1) = some ')')) →
    ∃ line2 col2, skipParenAux fuel ⟨src, pos, line, col, toks⟩ =
      ⟨src, src.length, line2, col2, toks⟩ := by
  intro rest
  induction rest with
  | nil =>
    intro fuel src pos line col toks hdrop hfuel hpos hnp
    have hlen : src.length ≤ pos := List.drop_eq_nil_iff_le.mp hdrop
    have heq : pos = src.length := Nat.le_antisymm hpos hlen
    have hnone : currentChar ⟨src, pos, line, col, toks⟩ = none := by
      show src.get? pos = none
      exact List.get?_eq_none.mpr hlen
    refine ⟨line, col, ?_⟩
    cases fuel with
    | zero =>
      rw [heq]
      rfl
    | succ f =>
      unfold skipParenAux
      rw [hnone, heq]
  | cons x rest ih =>
    intro fuel src pos line col toks hdrop hfuel hpos hnp
    have hget : src.get? pos = some x := get_of_drop src pos x rest hdrop
    have hcc : currentChar ⟨src, pos, line, col, toks⟩ = some x := hget
    have hdrop2 : src.drop (pos + 1) = rest := drop_succ_of_drop src pos x rest hdrop
    have hpk : peekChar ⟨src, pos, line, col, toks⟩ = rest.get? 0 := by
      show src.get? (pos + 1) = rest.get? 0
      exact get_eq_get_drop src (pos+1) rest hdrop2
    cases fuel with
    | zero => exact absurd hfuel (by simp)
    | succ f =>
      unfold skipParenAux
      rw [hcc]
      dsimp only
      rw [if_neg ?pair]
      case pair =>
        rintro ⟨hx, hp⟩
        refine hnp 0 ⟨?_, ?_⟩
        · show some x = some '*'
          rw [hx]
        · show rest.get? 0 = some ')'
          rw [← hpk]
          exact hp
      obtain ⟨l2, c2, hadv⟩ := advanceL_shape src pos line col toks
      rw [hadv]
      exact ih f src (pos+1) l2 c2 toks hdrop2
        (by simp only [List.length_cons] at hfuel; omega)
        (pos_lt_of_get hget)
        (fun i => hnp (i+1))

/-- An opening `{` with no `}` anywhere after it: the loop consumes the rest
of the input as a comment and emits only the EOF token afterwards — no
error. -/
theorem tokenizeAux_unterminated_brace (fuel : Nat) (st : LexSt)
    (hcc : currentChar st = some '{')
    (hnb : ∀ x ∈ st.source.drop (st.pos + 1), x ≠ '}') :
    ∃ line col, tokenizeAux (fuel + 1) st =
      some (.ok (st.tokens ++ [⟨.EOF, "$", line, col⟩])) := by
  obtain ⟨src, pos, line, col, toks⟩ := st
  dsimp only at hcc hnb ⊢
  have hget : src.get? pos = some '{' := hcc
  have hposlt : pos < src.length := pos_lt_of_get hget
  obtain ⟨l2, c2, hscan⟩ := skipBraceAux_all (src.drop (pos+1))
    (src.length - (pos+1)) src (pos+1) line (col+1) toks rfl
    (by rw [List.length_drop]) (by omega) hnb
  have hnone : currentChar ⟨src, src.length, l2, c2, toks⟩ = none := by
    show src.get? src.length = none
    exact List.get?_eq_none.mpr (Nat.le_refl _)
  have h2 : skipComment ⟨src, pos, line, col, toks⟩ = ⟨src, src.length, l2, c2, toks⟩ := by
    unfold skipComment
    rw [if_pos hcc, advanceL_plain hget (by decide)]
    dsimp only
    rw [hscan, if_neg (by rw [hnone]; simp)]
  have h1 : tokenizeAux (fuel + 1) ⟨src, pos, line, col, toks⟩
      = tokenizeAux fuel (skipComment ⟨src, pos, line, col, toks⟩) := by
    unfold tokenizeAux
    rw [hcc]
    dsimp only
    rw [if_neg (by decide), if_pos (Or.inl rfl)]
    exact tokenizeAux.eq_def _ _
  refine ⟨l2, c2, ?_⟩
  rw [h1, h2, tokenizeAux_eof fuel _ hnone]

/-- An opening `(*` with no `*)` pair anywhere after it: the loop consumes
the rest of the input as a comment and emits only the EOF token afterwards —
no error. -/
theorem tokenizeAux_unterminated_paren (fuel : Nat) (st : LexSt)
    (hcc : currentChar st = some '(') (hpk : peekChar st = some '*')
    (hnp : ∀ i, ¬((st.source.drop (st.pos + 2)).get? i = some '*' ∧
                  (st.source.drop (st.pos + 2)).get? (i+1) = some ')')) :
    ∃ line col, tokenizeAux (fuel + 1) st =
      some (.ok (st.tokens ++ [⟨.EOF, "$", line, col⟩])) := by
  obtain ⟨src, pos, line, col, toks⟩ := st
  dsimp only at hcc hpk hnp ⊢
  have hget : src.get? pos = some '(' := hcc
  have hget2 : src.get? (pos + 1) = some '*' := hpk
  have hposlt : pos + 1 < src.length := pos_lt_of_get hget2
  obtain ⟨l2, c2, hscan⟩ := skipParenAux_all (src.drop (pos+1+1))
    (src.length - (pos+1+1)) src (pos+1+1) line (col+1+1) toks rfl
    (by rw [List.length_drop]) (by omega) hnp
  have hnone : currentChar ⟨src, src.length, l2, c2, toks⟩ = none := by
    show src.get? src.length = none
    exact List.get?_eq_none.mpr (Nat.le_refl _)
  have h2 : skipComment ⟨src, pos, line, col, toks⟩ = ⟨src, src.length, l2, c2, toks⟩ := by
    unfold skipComment
    rw [if_neg (by rw [hcc]; simp), if_pos ⟨hcc, hpk⟩,
      advanceL_plain hget (by decide), advanceL_plain hget2 (by decide)]
    dsimp only
    rw [hscan]
  have h1 : tokenizeAux (fuel + 1) ⟨src, pos, line, col, toks⟩
      = tokenizeAux fuel (skipComment ⟨src, pos, line, col, toks⟩) := by
    unfold tokenizeAux
    rw [hcc]
    dsimp only
    rw [if_neg (by decide), if_pos (Or.inr ⟨rfl, hpk⟩)]
    exact tokenizeAux.eq_def _ _
  refine ⟨l2, c2, ?_⟩
  rw [h1, h2, tokenizeAux_eof fuel _ hnone]

/-- C8: `tokenize` never raises an error for an unterminated comment.  In
any loop state, an opening `{` with no `}` after it, or an opening `(*`
with no `*)` pair after it, makes the comment scanner silently consume the
rest of the input, and the loop then returns the tokens produced before the
comment followed by the EOF token.  Concretely, the inputs
`x := 1 { unterminated` and `y (* oops` lex without error to their
pre-comment tokens plus EOF. -/
theorem claim_C8 :
    (∀ (fuel : Nat) (st : LexSt), currentChar st = some '{' →
      (∀ x ∈ st.source.drop (st.pos + 1), x ≠ '}') →
      ∃ line col, tokenizeAux (fuel + 1) st =
        some (.ok (st.tokens ++ [⟨.EOF, "$", line, col⟩]))) ∧
    (∀ (fuel : Nat) (st : LexSt), currentChar st = some '(' →
      peekChar st = some '*' →
      (∀ i, ¬((st.source.drop (st.pos + 2)).get? i = some '*' ∧
              (st.source.drop (st.pos + 2)).get? (i+1) = some ')')) →
      ∃ line col, tokenizeAux (fuel + 1) st =
        some (.ok (st.tokens ++ [⟨.EOF, "$", line, col⟩]))) ∧
    tokenize "x := 1 \x7b unterminated" = some (.ok
      [⟨.ID, "x", 1, 1⟩, ⟨.ASSIGN, ":=", 1, 3⟩, ⟨.NUM, "1", 1, 6⟩,
       ⟨.EOF, "$", 1, 22⟩]) ∧
    tokenize "y (* oops" = some (.ok [⟨.ID, "y", 1, 1⟩, ⟨.EOF, "$", 1, 10⟩]) :=
  ⟨tokenizeAux_unterminated_brace, tokenizeAux_unterminated_paren, rfl, rfl⟩

/-- Witness for C8's two universal parts at concrete unterminated
comments. -/
theorem claim_C8_witness :
    (∃ line col, tokenizeAux 4 ⟨['{', 'a', 'b'], 0, 1, 1, []⟩ =
      some (.ok ([] ++ [⟨.EOF, "$", line, col⟩]))) ∧
    (∃ line col, tokenizeAux 3 ⟨['(', '*'], 0, 1, 1, []⟩ =
      some (.ok ([] ++ [⟨.EOF, "$", line, col⟩]))) :=
  ⟨claim_C8.1 3 ⟨['{', 'a', 'b'], 0, 1, 1, []⟩ rfl (by decide),
   claim_C8.2.1 2 ⟨['(', '*'], 0, 1, 1, []⟩ rfl rfl
     (fun i h => Option.noConfusion h.1)⟩
